import Mathlib

/-!
# HabitFlow persistence and analytics engine: a shallow embedding

This file embeds the logic of `src/database.py` of the HabitFlow repository
(SQLite habit/task tracker) in Lean 4 and verifies the specification claims
about it.

Modelling conventions:
* The SQLite store is a `Store` record holding the three tables used by the
  verified operations (`habits`, `habit_completions`, `tasks`) as lists of
  rows in insertion (rowid) order.  Surrogate autoincrement ids of
  `habit_completions` rows and `created_at` timestamps are omitted: no
  verified operation reads them.
* Python `date` objects become the `Date` structure below, with
  `Date.toOrdinal` matching `date.toordinal()` (proleptic Gregorian,
  0001-01-01 ↦ 1), `Date.isoformat` matching `date.isoformat()` /
  `strftime("%Y-%m-%d")` for the in-range years 1..9999, and `Date.pred`
  matching subtraction of `timedelta(days=1)`.
* `date.today()` is an ambient input of the Python code; the embedded
  analytics take `today : Date` as an explicit parameter.
* SQL `ORDER BY` on the TEXT `date` column is embedded as sorting by the
  parsed calendar date (`ordKey`).  For the zero-padded ISO `YYYY-MM-DD`
  strings the system stores (spec §6), lexicographic TEXT order coincides
  with calendar order, and every theorem below that depends on this order
  carries the well-formedness hypothesis making the two orders agree.
* Python floats for rates are idealised as exact rationals; `round(x, 1)`
  becomes `round1`.  The claims verified here only inspect rate fields whose
  exact value is an integer (0), where the idealisation is lossless.
-/

namespace HabitFlow

/-! ## Calendar dates (Python `datetime.date`) -/

/-- Gregorian leap-year test, as in Python's `calendar.isleap`. -/
def isLeap (y : Nat) : Bool :=
  (y % 4 == 0 && y % 100 != 0) || y % 400 == 0

/-- Days in a month (`calendar.monthrange(y, m)[1]`). -/
def daysInMonth (y m : Nat) : Nat :=
  if m = 2 then (if isLeap y then 29 else 28)
  else if m = 4 ∨ m = 6 ∨ m = 9 ∨ m = 11 then 30
  else 31

/-- Days in the years before year `y` (year 1 is the first year). -/
def daysBeforeYear (y : Nat) : Nat :=
  365 * (y - 1) + (y - 1) / 4 - (y - 1) / 100 + (y - 1) / 400

/-- Days in year `y` strictly before month `m`. -/
def daysBeforeMonth (y : Nat) : Nat → Nat
  | 0 => 0
  | 1 => 0
  | m + 2 => daysBeforeMonth y (m + 1) + daysInMonth y (m + 1)

/-- A calendar date, the embedding of Python `datetime.date`. -/
structure Date where
  year : Nat
  month : Nat
  day : Nat
deriving DecidableEq, Repr

/-- The date is an actual calendar date in Python's supported range. -/
def Date.Valid (d : Date) : Prop :=
  1 ≤ d.year ∧ d.year ≤ 9999 ∧ 1 ≤ d.month ∧ d.month ≤ 12 ∧
    1 ≤ d.day ∧ d.day ≤ daysInMonth d.year d.month

instance (d : Date) : Decidable d.Valid := by
  unfold Date.Valid; infer_instance

/-- `date.toordinal()`: 0001-01-01 has ordinal 1. -/
def Date.toOrdinal (d : Date) : Nat :=
  daysBeforeYear d.year + daysBeforeMonth d.year d.month + d.day

/-- `d - timedelta(days=1)` (calendar predecessor). -/
def Date.pred (d : Date) : Date :=
  if 1 < d.day then ⟨d.year, d.month, d.day - 1⟩
  else if 1 < d.month then ⟨d.year, d.month - 1, daysInMonth d.year (d.month - 1)⟩
  else ⟨d.year - 1, 12, 31⟩

/-- `d - timedelta(days=n)`. -/
def Date.predIter (d : Date) : Nat → Date
  | 0 => d
  | n + 1 => d.pred.predIter n

/-! ## ISO `YYYY-MM-DD` strings -/

/-- The ASCII digit character for `k` (`k < 10`). -/
def digitChar (k : Nat) : Char := Char.ofNat (48 + k)

/-- Numeric value of an ASCII digit character. -/
def digitVal (c : Char) : Nat := c.toNat - 48

def isDigitChar (c : Char) : Bool := 48 ≤ c.toNat && c.toNat ≤ 57

/-- Two-digit zero-padded rendering (`"%02d"` for values below 100). -/
def pad2Chars (n : Nat) : List Char :=
  [digitChar (n / 10 % 10), digitChar (n % 10)]

/-- Four-digit zero-padded rendering (`"%04d"` for values below 10000). -/
def pad4Chars (n : Nat) : List Char :=
  [digitChar (n / 1000 % 10), digitChar (n / 100 % 10),
   digitChar (n / 10 % 10), digitChar (n % 10)]

/-- `date.isoformat()` / `strftime("%Y-%m-%d")`: zero-padded `YYYY-MM-DD`. -/
def Date.isoformat (d : Date) : String :=
  String.mk (pad4Chars d.year ++ '-' :: pad2Chars d.month ++ '-' :: pad2Chars d.day)

/-- `datetime.strptime(s, "%Y-%m-%d").date()` restricted to the fully
zero-padded form the system stores; returns `none` where the Python call
would raise `ValueError` (and on non-padded variants, which never occur
under the well-formedness hypotheses of the theorems below). -/
def parseDate (s : String) : Option Date :=
  match s.data with
  | [y1, y2, y3, y4, '-', m1, m2, '-', d1, d2] =>
    if isDigitChar y1 && isDigitChar y2 && isDigitChar y3 && isDigitChar y4 &&
       isDigitChar m1 && isDigitChar m2 && isDigitChar d1 && isDigitChar d2 then
      let d : Date :=
        ⟨1000 * digitVal y1 + 100 * digitVal y2 + 10 * digitVal y3 + digitVal y4,
         10 * digitVal m1 + digitVal m2,
         10 * digitVal d1 + digitVal d2⟩
      if d.Valid then some d else none
    else none
  | _ => none

/-- Sort key used to embed SQL `ORDER BY` on the TEXT date column: the
ordinal of the parsed date (0 for strings that are not well-formed dates;
all ordered uses carry well-formedness hypotheses). -/
def ordKey (s : String) : Nat :=
  match parseDate s with
  | some d => d.toOrdinal
  | none => 0

/-- Prepend a character to the first piece of a split. -/
def splitDashAux (c : Char) : List (List Char) → List (List Char)
  | [] => [[c]]
  | p :: ps => (c :: p) :: ps

/-- Split a character list at `'-'` separators (Python `str.split("-")`). -/
def splitDash : List Char → List (List Char)
  | [] => [[]]
  | c :: rest =>
    if c = '-' then [] :: splitDash rest
    else splitDashAux c (splitDash rest)

/-- Numeric value of a digit string (`int(s)` for non-empty digit strings). -/
def digitsVal (l : List Char) : Nat :=
  l.foldl (fun acc c => 10 * acc + digitVal c) 0

/-- `int(date_str.split("-")[2])`, the day-of-month extraction of
`get_habit_completions`; 0 where the Python code would raise. -/
def dayOfDateStr (s : String) : Nat :=
  digitsVal ((splitDash s.data).getD 2 [])

/-! ## Data model (`init_database` schema) -/

/-- A row of the `habits` table.  `created_at` is omitted: no verified
operation reads it.  `sort_order` has SQL `DEFAULT 0`, and `create_habit`
inserts without it, so new habits carry `sort_order = 0`. -/
structure Habit where
  id : Nat
  name : String
  icon : String
  color : String
  sort_order : Nat
deriving DecidableEq, Repr

/-- A row of the `tasks` table (`completed` stored as 0/1 becomes `Bool`;
`created_at` omitted as above). -/
structure Task where
  id : Nat
  title : String
  date : String
  completed : Bool
  priority : String
  start_time : Option String
  end_time : Option String
deriving DecidableEq, Repr

/-- The durable store: the three tables consumed by the verified
operations, each as its list of rows in rowid order.  A
`habit_completions` row is its `(habit_id, date)` payload; the table's
`UNIQUE(habit_id, date)` constraint is the `UniqueCompletions` predicate
below, and the `habits` primary key is `NodupIds`. -/
structure Store where
  habits : List Habit
  completions : List (Nat × String)
  tasks : List Task
deriving DecidableEq, Repr

/-- Schema constraint `UNIQUE(habit_id, date)` on `habit_completions`: a
completion row is exactly its `(habit_id, date)` pair, so uniqueness of the
pair is `Nodup` of the rows. -/
def Store.UniqueCompletions (s : Store) : Prop :=
  s.completions.Nodup

instance (s : Store) : Decidable s.UniqueCompletions :=
  inferInstanceAs (Decidable (s.completions.Nodup))

/-- Schema constraint `id INTEGER PRIMARY KEY` on `habits`. -/
def Store.NodupIds (s : Store) : Prop :=
  (s.habits.map Habit.id).Nodup

instance (s : Store) : Decidable s.NodupIds :=
  inferInstanceAs (Decidable ((s.habits.map Habit.id).Nodup))

/-! ## Habit repository (`database.py`) -/

/-- The comparison behind `ORDER BY sort_order, id`. -/
def habitLe (a b : Habit) : Bool :=
  a.sort_order < b.sort_order || (a.sort_order == b.sort_order && a.id ≤ b.id)

instance habitLeTotal : IsTotal Habit (fun a b => habitLe a b = true) :=
  ⟨fun a b => by
    simp only [habitLe, Bool.or_eq_true, Bool.and_eq_true, decide_eq_true_eq, beq_iff_eq]
    omega⟩

instance habitLeTrans : IsTrans Habit (fun a b => habitLe a b = true) :=
  ⟨fun a b c hab hbc => by
    simp only [habitLe, Bool.or_eq_true, Bool.and_eq_true, decide_eq_true_eq, beq_iff_eq]
      at hab hbc ⊢
    omega⟩

/-- `get_all_habits()`: all habits ordered by `(sort_order, id)` (SQL
`ORDER BY` embedded as a stable sort). -/
def get_all_habits (s : Store) : List Habit :=
  s.habits.insertionSort (fun a b => habitLe a b = true)

/-- `delete_habit(habit_id)`: deletes the habit's completions, then the
habit row; returns `cursor.rowcount > 0` of the final `DELETE FROM habits`,
i.e. whether a habit row was removed. -/
def delete_habit (s : Store) (habit_id : Nat) : Store × Bool :=
  ({ s with
      completions := s.completions.filter (fun c => ¬ c.1 = habit_id)
      habits := s.habits.filter (fun h => ¬ h.id = habit_id) },
   s.habits.any (fun h => h.id = habit_id))

/-- `update_habits_order(habit_ids)`: one `UPDATE habits SET sort_order = ?
WHERE id = ?` per list position (`enumerate`), then `return True`. -/
def update_habits_order (s : Store) (habit_ids : List Nat) : Store × Bool :=
  (habit_ids.enum.foldl
    (fun st p =>
      { st with habits := (st.habits.map
          (fun h => if h.id = p.2 then { h with sort_order := p.1 } else h)) })
    s,
   true)

/-- `toggle_habit_completion(habit_id, date_str)`: deletes the matching
completion row if one exists (returning `False`), otherwise inserts one
(returning `True`). -/
def toggle_habit_completion (s : Store) (habit_id : Nat) (date_str : String) :
    Store × Bool :=
  if s.completions.any (fun c => c.1 = habit_id ∧ c.2 = date_str) then
    ({ s with completions :=
        s.completions.filter (fun c => ¬ (c.1 = habit_id ∧ c.2 = date_str)) },
     false)
  else
    ({ s with completions := s.completions ++ [(habit_id, date_str)] }, true)

/-- SQL `value LIKE pat || '%'` for the `%`-free, case-insensitivity-free
patterns used here (digits and dashes): string-prefix match. -/
def likeMatch (pat s : String) : Bool :=
  pat.data.isPrefixOf s.data

/-- `f"{year:04d}-{month:02d}"`, the month pattern of
`get_habit_completions` (all uses have `year ≤ 9999`, `month ≤ 99`). -/
def monthPat (year month : Nat) : String :=
  String.mk (pad4Chars year ++ '-' :: pad2Chars month)

/-- One step of the Python dict-building loop of `get_habit_completions`:
append `day` to the entry of `hid`, creating the entry if absent (Python
dicts preserve insertion order, hence the association list). -/
def addDay (acc : List (Nat × List Nat)) (hid day : Nat) : List (Nat × List Nat) :=
  if acc.any (fun e => e.1 = hid) then
    acc.map (fun e => if e.1 = hid then (e.1, e.2 ++ [day]) else e)
  else
    acc ++ [(hid, [day])]

/-- `get_habit_completions(year, month)`: rows matching
`date LIKE 'YYYY-MM%'`, folded into `{habit_id: [day, ...]}` where
`day = int(row["date"].split("-")[2])`. -/
def get_habit_completions (s : Store) (year month : Nat) : List (Nat × List Nat) :=
  (s.completions.filter (fun c => likeMatch (monthPat year month) c.2)).foldl
    (fun acc c => addDay acc c.1 (dayOfDateStr c.2)) []

/-- Reading the returned dictionary: the day list of a habit id (`[]` when
the key is absent). -/
def lookupDays (acc : List (Nat × List Nat)) (hid : Nat) : List Nat :=
  ((acc.find? (fun e => e.1 = hid)).map Prod.snd).getD []

/-! ## Analytics engine -/

/-- Python `round(x, 1)` idealised over exact rationals.  (Python rounds
floats half-to-even; every rounded value inspected by a theorem below is an
exact integer, where the two agree.) -/
def round1 (q : ℚ) : ℚ :=
  (round (q * 10) : ℤ) / 10

/-- `strftime("%a")`: weekday abbreviation; ordinal 1 (0001-01-01) was a
Monday. -/
def dayAbbrev (d : Date) : String :=
  (["Mon", "Tue", "Wed", "Thu", "Fri", "Sat", "Sun"]).getD ((d.toOrdinal - 1) % 7) ""

/-- `SELECT DISTINCT date FROM habit_completions ORDER BY date DESC LIMIT 30`
of `get_statistics` (order on the TEXT column embedded through `ordKey`,
see the header note). -/
instance descKeyTotal : IsTotal String (fun a b => ordKey b ≤ ordKey a) :=
  ⟨fun a b => Nat.le_total (ordKey b) (ordKey a)⟩

instance descKeyTrans : IsTrans String (fun a b => ordKey b ≤ ordKey a) :=
  ⟨fun _ _ _ hab hbc => le_trans hbc hab⟩

def datesDesc (s : Store) : List String :=
  (((s.completions.map Prod.snd).dedup).insertionSort
    (fun a b => ordKey b ≤ ordKey a)).take 30

/-- The 30-iteration current-streak scan of `get_statistics`: count a
scanned day when its ISO string is among `dates`; a miss on any day but the
first (`elif i > 0`) stops the scan. -/
def streakLoop (dates : List String) : Nat → Date → Bool → Nat → Nat
  | 0, _, _, streak => streak
  | fuel + 1, d, first, streak =>
    if d.isoformat ∈ dates then streakLoop dates fuel d.pred false (streak + 1)
    else if first then streakLoop dates fuel d.pred false streak
    else streak

/-- One element of `weekly_data`. -/
structure WeekDay where
  date : String
  day : String
  percentage : ℚ
  completed : Nat
deriving DecidableEq, Repr

/-- The dictionary returned by `get_statistics`. -/
structure Stats where
  total_habits : Nat
  today_completions : Nat
  today_tasks_total : Nat
  today_tasks_done : Nat
  streak : Nat
  weekly_data : List WeekDay
  completion_rate : ℚ
deriving DecidableEq, Repr

/-- `get_statistics()` (`date.today()` passed explicitly as `today`). -/
def get_statistics (today : Date) (s : Store) : Stats :=
  let total_habits := s.habits.length
  let today_completions :=
    (s.completions.filter (fun c => c.2 = today.isoformat)).length
  let todayTasks := s.tasks.filter (fun t => t.date = today.isoformat)
  let weekly_data := (List.range 7).map (fun k =>
    let day_date := today.predIter (6 - k)
    let completed :=
      (s.completions.filter (fun c => c.2 = day_date.isoformat)).length
    let percentage : ℚ :=
      if total_habits > 0 then (completed : ℚ) / total_habits * 100 else 0
    WeekDay.mk day_date.isoformat (dayAbbrev day_date) (round1 percentage) completed)
  { total_habits := total_habits
    today_completions := today_completions
    today_tasks_total := todayTasks.length
    today_tasks_done := (todayTasks.filter Task.completed).length
    streak := streakLoop (datesDesc s) 30 today true 0
    weekly_data := weekly_data
    completion_rate := round1
      (if total_habits > 0 then (today_completions : ℚ) / total_habits * 100 else 0) }

/-- One habit row of `get_daily_report`, annotated by the left join with its
completion flag for the report's date. -/
structure ReportHabit where
  id : Nat
  name : String
  icon : String
  color : String
  completed : Bool
deriving DecidableEq, Repr

/-- The dictionary returned by `get_daily_report`. -/
structure Report where
  date : String
  habits : List ReportHabit
  tasks : List Task
  habits_completed : Nat
  habits_total : Nat
  tasks_completed : Nat
  tasks_total : Nat
  habit_rate : ℚ
  task_rate : ℚ
  overall_score : ℚ
deriving DecidableEq, Repr

/-- The comparison behind `ORDER BY start_time, id` of `get_daily_report`
(SQL `NULL` sorts before any value in ascending order). -/
def taskTimeLe (a b : Task) : Bool :=
  match a.start_time, b.start_time with
  | none, none => a.id ≤ b.id
  | none, some _ => true
  | some _, none => false
  | some x, some y => decide (x < y) || (x == y && a.id ≤ b.id)

/-- `get_daily_report(target_date)`.  The left join against
`habit_completions` marks each habit completed iff a matching completion
row exists (at most one, by `UNIQUE(habit_id, date)`). -/
def get_daily_report (s : Store) (target_date : String) : Report :=
  let habits := (s.habits.insertionSort (fun a b => habitLe a b = true)).map (fun h =>
    ReportHabit.mk h.id h.name h.icon h.color
      (s.completions.any (fun c => c.1 = h.id ∧ c.2 = target_date)))
  let tasks := (s.tasks.filter (fun t => t.date = target_date)).insertionSort
    (fun a b => taskTimeLe a b = true)
  let habits_completed := (habits.filter ReportHabit.completed).length
  let tasks_completed := (tasks.filter Task.completed).length
  let habit_rate : ℚ :=
    if habits ≠ [] then (habits_completed : ℚ) / habits.length * 100 else 0
  let task_rate : ℚ :=
    if tasks ≠ [] then (tasks_completed : ℚ) / tasks.length * 100 else 0
  let overall_score : ℚ :=
    if habits ≠ [] ∨ tasks ≠ [] then (habit_rate + task_rate) / 2 else 0
  { date := target_date
    habits := habits
    tasks := tasks
    habits_completed := habits_completed
    habits_total := habits.length
    tasks_completed := tasks_completed
    tasks_total := tasks.length
    habit_rate := round1 habit_rate
    task_rate := round1 task_rate
    overall_score := round1 overall_score }

/-- The `while True` current-streak walk of `get_habit_streaks`, with
explicit fuel: each counted iteration consumes a distinct member of
`comps`, so `comps.length + 1` fuel never runs out (established by
`currentStreakAux_lt_fuel` below). -/
def currentStreakAux (comps : List String) : Nat → Date → Nat
  | 0, _ => 0
  | fuel + 1, d =>
    if d.isoformat ∈ comps then currentStreakAux comps fuel d.pred + 1 else 0

/-- The best-streak scan of `get_habit_streaks` over the tail of the sorted
date list: `(cur - prev).days == 1` keeps the run going, otherwise the run
is banked into `best`. -/
def bestGo : List Date → Date → Nat → Nat → Nat
  | [], _, streak, best => max best streak
  | d :: rest, prev, streak, best =>
    if d.toOrdinal - prev.toOrdinal = 1 then bestGo rest d (streak + 1) best
    else bestGo rest d 1 (max best streak)

/-- Best streak of a habit's completion dates sorted ascending
(`best_streak = 0` when there are no completions). -/
def bestScan : List Date → Nat
  | [] => 0
  | d :: rest => bestGo rest d 1 0

/-- Python `sorted` over `datetime.date` values compares calendar order,
i.e. ordinals. -/
def dateLe (a b : Date) : Prop :=
  a.toOrdinal ≤ b.toOrdinal

instance : DecidableRel dateLe := fun a b =>
  inferInstanceAs (Decidable (a.toOrdinal ≤ b.toOrdinal))

instance dateLeTotal : IsTotal Date dateLe :=
  ⟨fun a b => Nat.le_total a.toOrdinal b.toOrdinal⟩

instance dateLeTrans : IsTrans Date dateLe :=
  ⟨fun _ _ _ hab hbc => Nat.le_trans hab hbc⟩

/-- One element of the list returned by `get_habit_streaks`. -/
structure StreakEntry where
  id : Nat
  name : String
  icon : String
  color : String
  current_streak : Nat
  best_streak : Nat
  total_completions : Nat
deriving DecidableEq, Repr

/-- The per-habit completion date strings,
`SELECT date FROM habit_completions WHERE habit_id = ? ORDER BY date DESC`
(order embedded through `ordKey`; consumed only by membership tests and by
a re-sort, so the retrieval order is inert). -/
def habitDatesDesc (s : Store) (hid : Nat) : List String :=
  ((s.completions.filter (fun c => c.1 = hid)).map Prod.snd).insertionSort
    (fun a b => ordKey b ≤ ordKey a)

/-- `get_habit_streaks()` (`date.today()` passed explicitly). -/
def get_habit_streaks (today : Date) (s : Store) : List StreakEntry :=
  (s.habits.insertionSort (fun a b => habitLe a b = true)).map (fun h =>
    let completions := habitDatesDesc s h.id
    let current_streak := currentStreakAux completions (completions.length + 1) today
    let sorted_dates := (completions.filterMap parseDate).insertionSort dateLe
    StreakEntry.mk h.id h.name h.icon h.color
      current_streak (bestScan sorted_dates) completions.length)

/-! ## Startup migration (`init_database`) -/

/-- The `sort_order` backfill run unconditionally on every startup:
`UPDATE habits SET sort_order = id WHERE sort_order = 0 OR sort_order IS
NULL`.  (`NULL` cannot occur here: the column is created with `DEFAULT 0`
and the `ALTER TABLE ... ADD COLUMN ... DEFAULT 0` fills old rows with 0.) -/
def initBackfill (s : Store) : Store :=
  { s with habits := (s.habits.map
      (fun h => if h.sort_order = 0 then { h with sort_order := h.id } else h)) }

/-! ## Spec-side definitions

These follow the specification's words (spec §4.5, §8), to be compared with
the code-side functions above. -/

/-- Spec: "at least one habit completion exists anywhere in the system" on
day `d`. -/
def specPresent (s : Store) (d : Date) : Prop :=
  ∃ c ∈ s.completions, c.2 = d.isoformat

instance (s : Store) (d : Date) : Decidable (specPresent s d) :=
  List.decidableBEx _ s.completions

/-- Spec: habit `hid` has a completion on day `d`. -/
def habitPresent (s : Store) (hid : Nat) (d : Date) : Prop :=
  (hid, d.isoformat) ∈ s.completions

instance (s : Store) (hid : Nat) (d : Date) : Decidable (habitPresent s hid d) :=
  inferInstanceAs (Decidable ((hid, d.isoformat) ∈ s.completions))

/-- Spec §4.5 `dashboardStatistics`: "the count of consecutive calendar days
ending today, scanning backward up to 30 days, in which at least one habit
completion exists anywhere in the system — today itself is allowed to have
zero completions without breaking the streak, but any other missing day
stops the scan": today contributes 1 if completed, plus the longest
unbroken chain of completed days immediately preceding today (at most 29
more scanned days). -/
def specDashStreak (today : Date) (s : Store) : Nat :=
  (if specPresent s today then 1 else 0) +
    Nat.findGreatest
      (fun k => ∀ j ≤ k, 1 ≤ j → specPresent s (today.predIter j)) 29

/-- Spec §4.5 `habitStreaks` current streak: "count of consecutive days,
walking backward from today, with a completion, stopping at the first gap":
the largest `n` such that today, yesterday, …, `n - 1` days ago all carry a
completion of the habit (today missing gives 0).  The habit's completion
count bounds any such chain of distinct days. -/
def specCurrentStreak (today : Date) (s : Store) (hid : Nat) : Nat :=
  Nat.findGreatest
    (fun n => ∀ i < n, habitPresent s hid (today.predIter i))
    ((s.completions.filter (fun c => c.1 = hid)).length)

/-- The set `S` of day ordinals contains a run of `n` calendar-consecutive
days (every `n ≥ 1` run starts at a member). -/
def HasRun (S : Finset Nat) (n : Nat) : Prop :=
  n = 0 ∨ ∃ a ∈ S, ∀ i < n, a + i ∈ S

instance (S : Finset Nat) (n : Nat) : Decidable (HasRun S n) := by
  unfold HasRun; infer_instance

/-- Spec §4.5 `habitStreaks` best streak: "the longest run of
calendar-consecutive dates within that habit's entire completion history",
as the largest run length carried by the set of completion-day ordinals
(a run's days are distinct, so its length never exceeds the set's size). -/
def specBestStreak (S : Finset Nat) : Nat :=
  Nat.findGreatest (HasRun S) S.card

/-- The day ordinals of habit `hid`'s completion history. -/
def habitCompOrdinals (s : Store) (hid : Nat) : Finset Nat :=
  ((((s.completions.filter (fun c => c.1 = hid)).map Prod.snd).filterMap
    parseDate).map Date.toOrdinal).toFinset

/-! ## Well-formedness hypotheses -/

/-- Every stored completion date is a fully zero-padded ISO `YYYY-MM-DD`
rendering of an actual calendar date (spec §3, §6). -/
def Store.DatesWF (s : Store) : Prop :=
  ∀ c ∈ s.completions, (parseDate c.2).isSome = true

instance (s : Store) : Decidable s.DatesWF :=
  List.decidableBAll _ s.completions

/-- No stored completion date lies after `today` (compared as calendar
days; `ordKey` is the parsed ordinal on well-formed dates). -/
def Store.DatesLe (s : Store) (today : Date) : Prop :=
  ∀ c ∈ s.completions, ordKey c.2 ≤ today.toOrdinal

instance (s : Store) (today : Date) : Decidable (s.DatesLe today) :=
  List.decidableBAll _ s.completions

/-! ## Concrete example stores used by witnesses and counterexamples -/

/-- One habit, one completion. -/
def exToggleStore : Store := ⟨[⟨1, "Read", "B", "#6366F1", 1⟩], [(1, "2024-06-01")], []⟩

/-- One habit with id 1; used to exercise reordering with absent ids. -/
def exReorderStore : Store := ⟨[⟨1, "Read", "B", "#6366F1", 1⟩], [], []⟩

/-- A habit whose `sort_order` was explicitly assigned position 0 by
`update_habits_order([3])`. -/
def exBackfillStore : Store := ⟨[⟨3, "Read", "B", "#6366F1", 5⟩], [], []⟩

/-- Completions across two months, including an adjacent-month date
sharing a numeric day value. -/
def exMonthStore : Store :=
  ⟨[⟨1, "Read", "B", "#6366F1", 1⟩, ⟨2, "Run", "B", "#6366F1", 2⟩],
   [(1, "2024-06-01"), (1, "2024-06-15"), (2, "2024-06-02"), (1, "2024-05-15")], []⟩

/-- The spec's §8 best-streak example: completions on 2024-01-01, 02, 03,
05, 06. -/
def exStreakStore : Store :=
  ⟨[⟨1, "Read", "B", "#6366F1", 1⟩],
   [(1, "2024-01-01"), (1, "2024-01-02"), (1, "2024-01-03"),
    (1, "2024-01-05"), (1, "2024-01-06")], []⟩

/-- A habit completed today (2024-06-15) and marked complete on all 31 days
of the following month: 32 distinct completion dates, 31 of them in the
future. -/
def exFutureStore : Store :=
  ⟨[⟨1, "Read", "B", "#6366F1", 1⟩],
   [(1, "2024-06-15"),
   (1, "2024-07-01"),
   (1, "2024-07-02"),
   (1, "2024-07-03"),
   (1, "2024-07-04"),
   (1, "2024-07-05"),
   (1, "2024-07-06"),
   (1, "2024-07-07"),
   (1, "2024-07-08"),
   (1, "2024-07-09"),
   (1, "2024-07-10"),
   (1, "2024-07-11"),
   (1, "2024-07-12"),
   (1, "2024-07-13"),
   (1, "2024-07-14"),
   (1, "2024-07-15"),
   (1, "2024-07-16"),
   (1, "2024-07-17"),
   (1, "2024-07-18"),
   (1, "2024-07-19"),
   (1, "2024-07-20"),
   (1, "2024-07-21"),
   (1, "2024-07-22"),
   (1, "2024-07-23"),
   (1, "2024-07-24"),
   (1, "2024-07-25"),
   (1, "2024-07-26"),
   (1, "2024-07-27"),
   (1, "2024-07-28"),
   (1, "2024-07-29"),
   (1, "2024-07-30"),
   (1, "2024-07-31")], []⟩

/-- Two completions on consecutive past days, none in the future of
2024-06-03. -/
def exDashStore : Store :=
  ⟨[⟨1, "Read", "B", "#6366F1", 1⟩],
   [(1, "2024-06-02"), (1, "2024-06-03")], []⟩

/-- Four freshly created habits (`create_habit` leaves `sort_order = 0`). -/
def exFourHabits : Store :=
  ⟨[⟨1, "A", "B", "#1", 0⟩, ⟨2, "B", "B", "#2", 0⟩,
    ⟨3, "C", "B", "#3", 0⟩, ⟨4, "D", "B", "#4", 0⟩], [], []⟩

/-! ## Calendar lemmas -/

theorem daysInMonth_le (y m : Nat) : daysInMonth y m ≤ 31 := by
  unfold daysInMonth
  split_ifs <;> omega

theorem daysInMonth_pos (y m : Nat) : 1 ≤ daysInMonth y m := by
  unfold daysInMonth
  split_ifs <;> omega

theorem digitVal_digitChar {k : Nat} (h : k < 10) : digitVal (digitChar k) = k := by
  interval_cases k <;> decide

theorem isDigitChar_digitChar {k : Nat} (h : k < 10) :
    isDigitChar (digitChar k) = true := by
  interval_cases k <;> decide

theorem digitChar_digitVal {c : Char} (h : isDigitChar c = true) :
    digitChar (digitVal c) = c := by
  unfold isDigitChar at h
  simp only [Bool.and_eq_true, decide_eq_true_eq] at h
  unfold digitChar digitVal
  have h48 : 48 + (c.toNat - 48) = c.toNat := by omega
  rw [h48, Char.ofNat_toNat]

theorem parseDate_isoformat {d : Date} (h : d.Valid) :
    parseDate d.isoformat = some d := by
  obtain ⟨h1, h2, h3, h4, h5, h6⟩ := h
  have hd31 := daysInMonth_le d.year d.month
  have hmod : ∀ n : Nat, n % 10 < 10 := fun n => Nat.mod_lt _ (by norm_num)
  unfold Date.isoformat pad4Chars pad2Chars parseDate
  simp only [List.cons_append, List.nil_append]
  simp only [isDigitChar_digitChar (hmod _), Bool.and_self, if_true]
  simp only [digitVal_digitChar (hmod _)]
  have hy : 1000 * (d.year / 1000 % 10) + 100 * (d.year / 100 % 10) +
      10 * (d.year / 10 % 10) + d.year % 10 = d.year := by omega
  have hm : 10 * (d.month / 10 % 10) + d.month % 10 = d.month := by omega
  have hdd : 10 * (d.day / 10 % 10) + d.day % 10 = d.day := by omega
  simp only [hy, hm, hdd]
  have hv : Date.Valid ⟨d.year, d.month, d.day⟩ :=
    ⟨h1, h2, h3, h4, h5, h6⟩
  rw [if_pos hv]

theorem digitVal_lt {c : Char} (h : isDigitChar c = true) : digitVal c < 10 := by
  unfold isDigitChar at h
  simp only [Bool.and_eq_true, decide_eq_true_eq] at h
  unfold digitVal
  omega

theorem parseDate_sound {s : String} {d : Date} (h : parseDate s = some d) :
    d.Valid ∧ s = d.isoformat := by
  unfold parseDate at h
  split at h
  case h_2 => exact absurd h (by simp)
  case h_1 y1 y2 y3 y4 m1 m2 d1 d2 hdata =>
    split at h
    case isFalse => exact absurd h (by simp)
    case isTrue hdig =>
      dsimp only at h
      split at h
      case isFalse => exact absurd h (by simp)
      case isTrue hv =>
        injection h with h
        subst h
        simp only [Bool.and_eq_true] at hdig
        obtain ⟨⟨⟨⟨⟨⟨⟨e1, e2⟩, e3⟩, e4⟩, e5⟩, e6⟩, e7⟩, e8⟩ := hdig
        refine ⟨hv, ?_⟩
        have v1 := digitVal_lt e1
        have v2 := digitVal_lt e2
        have v3 := digitVal_lt e3
        have v4 := digitVal_lt e4
        have v5 := digitVal_lt e5
        have v6 := digitVal_lt e6
        have v7 := digitVal_lt e7
        have v8 := digitVal_lt e8
        apply String.ext
        rw [hdata]
        unfold Date.isoformat pad4Chars pad2Chars
        simp only [List.cons_append, List.nil_append]
        have gy1 : (1000 * digitVal y1 + 100 * digitVal y2 + 10 * digitVal y3 +
            digitVal y4) / 1000 % 10 = digitVal y1 := by omega
        have gy2 : (1000 * digitVal y1 + 100 * digitVal y2 + 10 * digitVal y3 +
            digitVal y4) / 100 % 10 = digitVal y2 := by omega
        have gy3 : (1000 * digitVal y1 + 100 * digitVal y2 + 10 * digitVal y3 +
            digitVal y4) / 10 % 10 = digitVal y3 := by omega
        have gy4 : (1000 * digitVal y1 + 100 * digitVal y2 + 10 * digitVal y3 +
            digitVal y4) % 10 = digitVal y4 := by omega
        have gm1 : (10 * digitVal m1 + digitVal m2) / 10 % 10 = digitVal m1 := by omega
        have gm2 : (10 * digitVal m1 + digitVal m2) % 10 = digitVal m2 := by omega
        have gd1 : (10 * digitVal d1 + digitVal d2) / 10 % 10 = digitVal d1 := by omega
        have gd2 : (10 * digitVal d1 + digitVal d2) % 10 = digitVal d2 := by omega
        rw [gy1, gy2, gy3, gy4, gm1, gm2, gd1, gd2]
        rw [digitChar_digitVal e1, digitChar_digitVal e2, digitChar_digitVal e3,
          digitChar_digitVal e4, digitChar_digitVal e5, digitChar_digitVal e6,
          digitChar_digitVal e7, digitChar_digitVal e8]

/-- On valid dates, `isoformat` is injective. -/
theorem isoformat_inj {d d' : Date} (h : d.Valid) (h' : d'.Valid)
    (he : d.isoformat = d'.isoformat) : d = d' := by
  have p1 := parseDate_isoformat h
  have p2 := parseDate_isoformat h'
  rw [he] at p1
  rw [p1] at p2
  exact Option.some_inj.mp p2

theorem ordKey_isoformat {d : Date} (h : d.Valid) :
    ordKey d.isoformat = d.toOrdinal := by
  unfold ordKey
  rw [parseDate_isoformat h]

theorem daysBeforeYear_mono {y y' : Nat} (h : y ≤ y') :
    daysBeforeYear y ≤ daysBeforeYear y' := by
  unfold daysBeforeYear
  have h1 : (y - 1) / 4 ≤ (y' - 1) / 4 := Nat.div_le_div_right (by omega)
  have h2 : (y - 1) / 400 ≤ (y' - 1) / 400 := Nat.div_le_div_right (by omega)
  omega

theorem daysBeforeYear_succ {y : Nat} (h : 1 ≤ y) :
    daysBeforeYear (y + 1) = daysBeforeYear y + 365 + (if isLeap y then 1 else 0) := by
  unfold daysBeforeYear isLeap
  have e4 : y / 4 = (y - 1) / 4 + if 4 ∣ y then 1 else 0 := by
    have hs := Nat.succ_div (y - 1) 4
    have hy : y - 1 + 1 = y := by omega
    rw [hy] at hs; exact hs
  have e100 : y / 100 = (y - 1) / 100 + if 100 ∣ y then 1 else 0 := by
    have hs := Nat.succ_div (y - 1) 100
    have hy : y - 1 + 1 = y := by omega
    rw [hy] at hs; exact hs
  have e400 : y / 400 = (y - 1) / 400 + if 400 ∣ y then 1 else 0 := by
    have hs := Nat.succ_div (y - 1) 400
    have hy : y - 1 + 1 = y := by omega
    rw [hy] at hs; exact hs
  simp only [Nat.dvd_iff_mod_eq_zero] at e4 e100 e400
  simp only [Nat.add_sub_cancel]
  by_cases h4 : y % 4 = 0 <;> by_cases h100 : y % 100 = 0 <;> by_cases h400 : y % 400 = 0 <;>
    simp only [h4, h100, h400, if_true, if_false, ite_true, ite_false, if_neg, if_pos,
      beq_iff_eq, bne_iff_ne, ne_eq, not_false_eq_true, not_true_eq_false] at e4 e100 e400 ⊢ <;>
    simp [h4, h100, h400] <;> omega

theorem daysBeforeMonth_succ (y : Nat) {m : Nat} (h : 1 ≤ m) :
    daysBeforeMonth y (m + 1) = daysBeforeMonth y m + daysInMonth y m := by
  match m, h with
  | 1, _ => rfl
  | n + 2, _ => rfl

/-- The months of year `y` total 365 days, 366 in leap years. -/
theorem daysBeforeMonth_year (y : Nat) :
    daysBeforeMonth y 12 + daysInMonth y 12 = 365 + (if isLeap y then 1 else 0) := by
  cases hl : isLeap y <;>
    simp [daysBeforeMonth, daysInMonth, hl] <;> norm_num

theorem daysBeforeMonth_mono (y : Nat) {m m' : Nat} (h : m ≤ m') :
    daysBeforeMonth y m ≤ daysBeforeMonth y m' := by
  induction m' with
  | zero => simp_all
  | succ n ih =>
    rcases Nat.lt_or_ge m (n + 1) with hlt | hge
    · have hn := ih (by omega)
      rcases Nat.eq_zero_or_pos n with h0 | hpos
      · subst h0
        interval_cases m <;> simp [daysBeforeMonth]
      · rw [daysBeforeMonth_succ y hpos]
        omega
    · have : m = n + 1 := by omega
      subst this
      exact le_refl _

/-- Within a valid date's year, `daysBeforeMonth + day` stays inside the
year's day count. -/
theorem ord_in_year {d : Date} (h : d.Valid) :
    1 ≤ daysBeforeMonth d.year d.month + d.day ∧
      daysBeforeMonth d.year d.month + d.day ≤ 365 + (if isLeap d.year then 1 else 0) := by
  obtain ⟨h1, h2, h3, h4, h5, h6⟩ := h
  constructor
  · omega
  · have step : daysBeforeMonth d.year d.month + d.day ≤
        daysBeforeMonth d.year (d.month + 1) := by
      rw [daysBeforeMonth_succ d.year h3]
      omega
    have mono : daysBeforeMonth d.year (d.month + 1) ≤ daysBeforeMonth d.year 13 :=
      daysBeforeMonth_mono d.year (by omega)
    have last : daysBeforeMonth d.year 13 =
        daysBeforeMonth d.year 12 + daysInMonth d.year 12 :=
      daysBeforeMonth_succ d.year (by omega)
    have := daysBeforeMonth_year d.year
    omega

/-- `toOrdinal` is strictly monotone from calendar order to `Nat`. -/
theorem toOrdinal_lt_of_yearLt {d d' : Date} (h : d.Valid) (h' : d'.Valid)
    (hy : d.year < d'.year) : d.toOrdinal < d'.toOrdinal := by
  have hin := ord_in_year h
  have hin' := ord_in_year h'
  have hsucc := daysBeforeYear_succ (y := d.year) (by exact h.1)
  have hmono : daysBeforeYear (d.year + 1) ≤ daysBeforeYear d'.year :=
    daysBeforeYear_mono (by omega)
  unfold Date.toOrdinal
  omega

theorem toOrdinal_lt_of_monthLt {d d' : Date} (h : d.Valid) (h' : d'.Valid)
    (hy : d.year = d'.year) (hm : d.month < d'.month) :
    d.toOrdinal < d'.toOrdinal := by
  obtain ⟨h1, h2, h3, h4, h5, h6⟩ := h
  obtain ⟨g1, g2, g3, g4, g5, g6⟩ := h'
  have step : daysBeforeMonth d.year d.month + d.day ≤
      daysBeforeMonth d.year (d.month + 1) := by
    rw [daysBeforeMonth_succ d.year h3]
    omega
  have mono : daysBeforeMonth d.year (d.month + 1) ≤ daysBeforeMonth d.year d'.month :=
    daysBeforeMonth_mono d.year (by omega)
  unfold Date.toOrdinal
  rw [← hy]
  omega

/-- `toOrdinal` is injective on valid dates. -/
theorem toOrdinal_inj {d d' : Date} (h : d.Valid) (h' : d'.Valid)
    (he : d.toOrdinal = d'.toOrdinal) : d = d' := by
  rcases Nat.lt_trichotomy d.year d'.year with hy | hy | hy
  · exact absurd he (Nat.ne_of_lt (toOrdinal_lt_of_yearLt h h' hy))
  · rcases Nat.lt_trichotomy d.month d'.month with hm | hm | hm
    · exact absurd he (Nat.ne_of_lt (toOrdinal_lt_of_monthLt h h' hy hm))
    · have hd : d.day = d'.day := by
        unfold Date.toOrdinal at he
        rw [hy, hm] at he
        omega
      cases d; cases d'
      simp_all
    · exact absurd he.symm (Nat.ne_of_lt (toOrdinal_lt_of_monthLt h' h hy.symm hm))
  · exact absurd he.symm (Nat.ne_of_lt (toOrdinal_lt_of_yearLt h' h hy))

theorem toOrdinal_pos {d : Date} (h : d.Valid) : 1 ≤ d.toOrdinal := by
  have := ord_in_year h
  unfold Date.toOrdinal
  omega

/-- The calendar predecessor of a valid date other than 0001-01-01 is valid
and sits one ordinal lower. -/
theorem pred_valid_ordinal {d : Date} (h : d.Valid) (h1 : 1 < d.toOrdinal) :
    d.pred.Valid ∧ d.pred.toOrdinal + 1 = d.toOrdinal := by
  obtain ⟨v1, v2, v3, v4, v5, v6⟩ := h
  unfold Date.pred
  by_cases hd : 1 < d.day
  · rw [if_pos hd]
    refine ⟨⟨v1, v2, v3, v4, by show 1 ≤ d.day - 1; omega, ?_⟩, ?_⟩
    · show d.day - 1 ≤ daysInMonth d.year d.month
      omega
    · show daysBeforeYear d.year + daysBeforeMonth d.year d.month + (d.day - 1) + 1 =
        d.toOrdinal
      unfold Date.toOrdinal
      omega
  · rw [if_neg hd]
    by_cases hm : 1 < d.month
    · rw [if_pos hm]
      have hstep : daysBeforeMonth d.year d.month =
          daysBeforeMonth d.year (d.month - 1) + daysInMonth d.year (d.month - 1) := by
        have hs := daysBeforeMonth_succ d.year (m := d.month - 1) (by omega)
        have hmm : d.month - 1 + 1 = d.month := by omega
        rw [hmm] at hs
        exact hs
      refine ⟨⟨v1, v2, by show 1 ≤ d.month - 1; omega, by show d.month - 1 ≤ 12; omega,
        daysInMonth_pos _ _, le_refl _⟩, ?_⟩
      show daysBeforeYear d.year + daysBeforeMonth d.year (d.month - 1) +
          daysInMonth d.year (d.month - 1) + 1 = d.toOrdinal
      unfold Date.toOrdinal
      omega
    · rw [if_neg hm]
      -- day = 1, month = 1; the date is January 1st of year ≥ 2.
      have hm1 : d.month = 1 := by omega
      have hd1 : d.day = 1 := by omega
      have hy2 : 2 ≤ d.year := by
        by_contra hy
        have hy1 : d.year = 1 := by omega
        unfold Date.toOrdinal at h1
        rw [hy1, hm1, hd1] at h1
        simp [daysBeforeYear, daysBeforeMonth] at h1
      have hsucc := daysBeforeYear_succ (y := d.year - 1) (by omega)
      have hyy : d.year - 1 + 1 = d.year := by omega
      rw [hyy] at hsucc
      have hyear := daysBeforeMonth_year (d.year - 1)
      have h31 : daysInMonth (d.year - 1) 12 = 31 := by
        unfold daysInMonth
        norm_num
      refine ⟨⟨by show 1 ≤ d.year - 1; omega, by show d.year - 1 ≤ 9999; omega,
        by show (1 : Nat) ≤ 12; omega, by show (12 : Nat) ≤ 12; omega,
        by show (1 : Nat) ≤ 31; omega, ?_⟩, ?_⟩
      · show daysInMonth (d.year - 1) 12 ≤ daysInMonth (d.year - 1) 12
        exact le_refl _
      · show daysBeforeYear (d.year - 1) + daysBeforeMonth (d.year - 1) 12 +
          daysInMonth (d.year - 1) 12 + 1 = d.toOrdinal
        unfold Date.toOrdinal
        rw [hm1, hd1]
        have hbm1 : daysBeforeMonth d.year 1 = 0 := rfl
        omega

/-- Iterated predecessor: valid, and the ordinal drops by the step count,
as long as the walk cannot reach back past 0001-01-01. -/
theorem predIter_valid_ordinal {d : Date} (h : d.Valid) :
    ∀ n, n < d.toOrdinal →
      (d.predIter n).Valid ∧ (d.predIter n).toOrdinal = d.toOrdinal - n := by
  intro n
  induction n generalizing d with
  | zero => intro _; exact ⟨h, by simp [Date.predIter]⟩
  | succ k ih =>
    intro hk
    have h1 : 1 < d.toOrdinal := by omega
    obtain ⟨hv, ho⟩ := pred_valid_ordinal h h1
    have := ih hv (by omega)
    unfold Date.predIter
    refine ⟨this.1, ?_⟩
    rw [this.2]
    omega

/-! ## Toggle lemmas -/

theorem pair_eq_of {c : Nat × String} {hid : Nat} {dstr : String}
    (h1 : c.1 = hid) (h2 : c.2 = dstr) : c = (hid, dstr) := by
  cases c
  simp_all

theorem toggle_any_iff (l : List (Nat × String)) (hid : Nat) (dstr : String) :
    (l.any (fun c => c.1 = hid ∧ c.2 = dstr)) = true ↔ (hid, dstr) ∈ l := by
  rw [List.any_eq_true]
  constructor
  · rintro ⟨c, hc, hp⟩
    simp only [decide_eq_true_eq] at hp
    have hcp : c = (hid, dstr) := pair_eq_of hp.1 hp.2
    rwa [hcp] at hc
  · intro hmem
    exact ⟨(hid, dstr), hmem, by simp⟩

/-- A list with no duplicates is, up to order, a listed member plus the
rows differing from it. -/
theorem perm_cons_filter_ne {α : Type} [DecidableEq α] {l : List α} {a : α}
    (hn : l.Nodup) (ha : a ∈ l) :
    l.Perm (a :: l.filter (fun x => x ≠ a)) := by
  induction l with
  | nil => cases ha
  | cons b t ih =>
    rcases List.mem_cons.mp ha with hb | ht
    · subst hb
      have hbt : a ∉ t := (List.nodup_cons.mp hn).1
      have hft : t.filter (fun x => x ≠ a) = t :=
        List.filter_eq_self.mpr (fun x hx => by
          simp only [ne_eq, decide_eq_true_eq]
          intro he
          exact hbt (he ▸ hx))
      rw [List.filter_cons_of_neg (by simp), hft]
    · have hn' := (List.nodup_cons.mp hn).2
      have hba : b ≠ a := fun he => (List.nodup_cons.mp hn).1 (he ▸ ht)
      have ihp := ih hn' ht
      rw [List.filter_cons_of_pos (by simpa using hba)]
      exact (ihp.cons b).trans (List.Perm.swap a b _)

theorem toggle_filter_ne (l : List (Nat × String)) (hid : Nat) (dstr : String) :
    l.filter (fun c => ¬ (c.1 = hid ∧ c.2 = dstr)) =
      l.filter (fun c => c ≠ (hid, dstr)) :=
  List.filter_congr (fun x _ => by simp [ne_eq, Prod.ext_iff])

theorem pair_not_mem_toggle_filter (l : List (Nat × String)) (hid : Nat) (dstr : String) :
    (hid, dstr) ∉ l.filter (fun c => ¬ (c.1 = hid ∧ c.2 = dstr)) := by
  rw [toggle_filter_ne]
  intro hmem
  have := (List.mem_filter.mp hmem).2
  simp at this

/-- C1: toggling the same `(habit_id, date)` twice returns the store to its
original state (same completion rows up to order, habits and tasks
untouched, no residual record for the pair), the first call returns `true`
exactly when it created the record, each call reports the pair's resulting
state, and the second call returns the opposite of the first. -/
theorem toggleCompletion_twice (s : Store) (habit_id : Nat) (date_str : String)
    (hu : s.UniqueCompletions) :
    ((toggle_habit_completion (toggle_habit_completion s habit_id date_str).1
        habit_id date_str).1.completions.Perm s.completions) ∧
    (toggle_habit_completion (toggle_habit_completion s habit_id date_str).1
        habit_id date_str).1.habits = s.habits ∧
    (toggle_habit_completion (toggle_habit_completion s habit_id date_str).1
        habit_id date_str).1.tasks = s.tasks ∧
    ((toggle_habit_completion s habit_id date_str).2 = true ↔
      (habit_id, date_str) ∉ s.completions) ∧
    ((toggle_habit_completion s habit_id date_str).2 = true ↔
      (habit_id, date_str) ∈ (toggle_habit_completion s habit_id date_str).1.completions) ∧
    (toggle_habit_completion (toggle_habit_completion s habit_id date_str).1
        habit_id date_str).2 = !(toggle_habit_completion s habit_id date_str).2 := by
  by_cases hmem : (habit_id, date_str) ∈ s.completions
  · -- the pair exists: first call deletes it, second call re-inserts it
    have hany : (s.completions.any (fun c => c.1 = habit_id ∧ c.2 = date_str)) = true :=
      (toggle_any_iff _ _ _).mpr hmem
    have h1 : toggle_habit_completion s habit_id date_str =
        ({ s with completions :=
            s.completions.filter (fun c => ¬ (c.1 = habit_id ∧ c.2 = date_str)) },
         false) := by
      unfold toggle_habit_completion
      rw [if_pos hany]
    have hnot : ¬ ((s.completions.filter
        (fun c => ¬ (c.1 = habit_id ∧ c.2 = date_str))).any
          (fun c => c.1 = habit_id ∧ c.2 = date_str)) = true := by
      rw [toggle_any_iff]
      exact pair_not_mem_toggle_filter _ _ _
    have h2 : toggle_habit_completion (toggle_habit_completion s habit_id date_str).1
        habit_id date_str =
        ({ s with completions :=
            (s.completions.filter (fun c => ¬ (c.1 = habit_id ∧ c.2 = date_str))) ++
              [(habit_id, date_str)] },
         true) := by
      rw [h1]
      unfold toggle_habit_completion
      simp only [eq_false_of_ne_true hnot, Bool.false_eq_true, if_false]
    rw [h2, h1]
    refine ⟨?_, rfl, rfl, by simp [hmem], by simp [pair_not_mem_toggle_filter], by simp⟩
    -- filtered ++ [pair] ~ pair :: filtered ~ s.completions
    refine (List.perm_append_singleton _ _).trans ?_
    rw [toggle_filter_ne]
    exact (perm_cons_filter_ne hu hmem).symm
  · -- the pair is absent: first call inserts it, second call deletes it
    have hany : ¬ (s.completions.any (fun c => c.1 = habit_id ∧ c.2 = date_str)) = true := by
      rw [toggle_any_iff]; exact hmem
    have h1 : toggle_habit_completion s habit_id date_str =
        ({ s with completions := s.completions ++ [(habit_id, date_str)] }, true) := by
      unfold toggle_habit_completion
      simp only [eq_false_of_ne_true hany, Bool.false_eq_true, if_false]
    have hany2 : ((s.completions ++ [(habit_id, date_str)]).any
        (fun c => c.1 = habit_id ∧ c.2 = date_str)) = true := by
      rw [toggle_any_iff]
      simp
    have h2 : toggle_habit_completion (toggle_habit_completion s habit_id date_str).1
        habit_id date_str =
        ({ s with completions :=
            ((s.completions ++ [(habit_id, date_str)]).filter
              (fun c => ¬ (c.1 = habit_id ∧ c.2 = date_str))) },
         false) := by
      rw [h1]
      unfold toggle_habit_completion
      rw [if_pos hany2]
    have hfilter : (s.completions ++ [(habit_id, date_str)]).filter
        (fun c => ¬ (c.1 = habit_id ∧ c.2 = date_str)) = s.completions := by
      rw [List.filter_append]
      have hall : s.completions.filter
          (fun c => ¬ (c.1 = habit_id ∧ c.2 = date_str)) = s.completions := by
        rw [List.filter_eq_self]
        intro c hc
        simp only [decide_eq_true_eq]
        intro hp
        exact hmem (pair_eq_of hp.1 hp.2 ▸ hc)
      have hsingle : ([(habit_id, date_str)] : List (Nat × String)).filter
          (fun c => ¬ (c.1 = habit_id ∧ c.2 = date_str)) = [] := by
        simp
      rw [hall, hsingle, List.append_nil]
    rw [h2, hfilter, h1]
    exact ⟨List.Perm.refl _, rfl, rfl, by simp [hmem], by simp, by simp⟩

/-- Witness for C1: the round trip evaluated on a one-completion store. -/
theorem toggleCompletion_twice_witness :
    exToggleStore.UniqueCompletions ∧
    (((toggle_habit_completion (toggle_habit_completion exToggleStore 1 "2024-06-01").1
        1 "2024-06-01").1.completions.Perm exToggleStore.completions) ∧
    (toggle_habit_completion (toggle_habit_completion exToggleStore 1 "2024-06-01").1
        1 "2024-06-01").1.habits = exToggleStore.habits ∧
    (toggle_habit_completion (toggle_habit_completion exToggleStore 1 "2024-06-01").1
        1 "2024-06-01").1.tasks = exToggleStore.tasks ∧
    ((toggle_habit_completion exToggleStore 1 "2024-06-01").2 = true ↔
      (1, "2024-06-01") ∉ exToggleStore.completions) ∧
    ((toggle_habit_completion exToggleStore 1 "2024-06-01").2 = true ↔
      (1, "2024-06-01") ∈
        (toggle_habit_completion exToggleStore 1 "2024-06-01").1.completions) ∧
    (toggle_habit_completion (toggle_habit_completion exToggleStore 1 "2024-06-01").1
        1 "2024-06-01").2 = !(toggle_habit_completion exToggleStore 1 "2024-06-01").2) :=
  ⟨by decide, toggleCompletion_twice exToggleStore 1 "2024-06-01" (by decide)⟩

/-- C8: `deleteHabit` removes the habit and all its completions; it reports
`true` exactly when a habit row existed, and a second deletion of the same
id is a no-op returning `false`. -/
theorem deleteHabit_cascade (s : Store) (hid : Nat) :
    (delete_habit s hid).1.completions.filter (fun c => c.1 = hid) = [] ∧
    (delete_habit s hid).1.habits.filter (fun h => h.id = hid) = [] ∧
    ((delete_habit s hid).2 = true ↔ ∃ h ∈ s.habits, h.id = hid) ∧
    (delete_habit (delete_habit s hid).1 hid).2 = false ∧
    (delete_habit (delete_habit s hid).1 hid).1 = (delete_habit s hid).1 := by
  refine ⟨?_, ?_, ?_, ?_, ?_⟩
  · rw [List.filter_eq_nil_iff]
    intro c hc
    have := (List.mem_filter.mp hc).2
    simp only [decide_eq_true_eq] at this ⊢
    exact this
  · rw [List.filter_eq_nil_iff]
    intro h hh
    have := (List.mem_filter.mp hh).2
    simp only [decide_eq_true_eq] at this ⊢
    exact this
  · show (s.habits.any (fun h => h.id = hid)) = true ↔ _
    rw [List.any_eq_true]
    simp
  · show ((delete_habit s hid).1.habits.any (fun h => h.id = hid)) = false
    rw [Bool.eq_false_iff]
    intro hany
    rw [List.any_eq_true] at hany
    obtain ⟨h, hmem, hp⟩ := hany
    have hne := (List.mem_filter.mp hmem).2
    simp only [decide_eq_true_eq] at hp hne
    exact hne hp
  · show ({ (delete_habit s hid).1 with
        completions := (delete_habit s hid).1.completions.filter (fun c => ¬ c.1 = hid),
        habits := (delete_habit s hid).1.habits.filter (fun h => ¬ h.id = hid) } : Store) = _
    have hc : (delete_habit s hid).1.completions.filter (fun c => ¬ c.1 = hid) =
        (delete_habit s hid).1.completions := by
      rw [List.filter_eq_self]
      intro c hc
      have := (List.mem_filter.mp hc).2
      simpa using this
    have hh : (delete_habit s hid).1.habits.filter (fun h => ¬ h.id = hid) =
        (delete_habit s hid).1.habits := by
      rw [List.filter_eq_self]
      intro h hh
      have := (List.mem_filter.mp hh).2
      simpa using this
    rw [hc, hh]

/-- C9: contrary to the declared `FOREIGN KEY ... ON DELETE CASCADE`
(inert because the connection never enables foreign-key enforcement),
toggling a completion for a habit id that does not exist creates an orphan
completion record referencing no habit. -/
theorem toggle_creates_orphan :
    (toggle_habit_completion (Store.mk [] [] []) 999 "2024-01-01").1.completions =
      [(999, "2024-01-01")] ∧
    (toggle_habit_completion (Store.mk [] [] []) 999 "2024-01-01").1.habits = [] ∧
    ¬ ∃ h ∈ (toggle_habit_completion (Store.mk [] [] []) 999 "2024-01-01").1.habits,
        h.id = 999 := by
  refine ⟨rfl, rfl, ?_⟩
  rintro ⟨h, hmem, -⟩
  simp [toggle_habit_completion] at hmem

/-- C10: `reorderHabits` returns `true` for every input list (the boolean
carries no information), and ids without a matching habit change nothing. -/
theorem reorder_always_true (s : Store) (ids : List Nat) :
    (update_habits_order s ids).2 = true ∧
    ((∀ i ∈ ids, ∀ h ∈ s.habits, h.id ≠ i) → (update_habits_order s ids).1 = s) := by
  constructor
  · rfl
  · intro hnone
    show (ids.enum.foldl _ s) = s
    have main : ∀ (pairs : List (Nat × Nat)) (st : Store),
        (∀ p ∈ pairs, ∀ h ∈ st.habits, h.id ≠ p.2) →
        pairs.foldl (fun st p =>
          { st with habits := (st.habits.map
              (fun h => if h.id = p.2 then { h with sort_order := p.1 } else h)) }) st = st := by
      intro pairs
      induction pairs with
      | nil => intro st _; rfl
      | cons p rest ih =>
        intro st hst
        rw [List.foldl_cons]
        have hmap : st.habits.map
            (fun h => if h.id = p.2 then { h with sort_order := p.1 } else h) = st.habits := by
          have := List.map_congr_left (l := st.habits)
            (f := fun h => if h.id = p.2 then { h with sort_order := p.1 } else h)
            (g := id)
            (fun h hh => by
              dsimp only [id]
              rw [if_neg (hst p (List.mem_cons_self p rest) h hh)])
          rw [this, List.map_id]
        rw [hmap]
        have hst' : ({ st with habits := st.habits } : Store) = st := rfl
        rw [hst']
        exact ih st (fun q hq h hh => hst q (List.mem_cons_of_mem p hq) h hh)
    apply main
    intro p hp h hh
    have hp2 : p.2 ∈ ids := by
      have := List.enum_map_snd ids
      have hmem : p.2 ∈ ids.enum.map Prod.snd := List.mem_map_of_mem Prod.snd hp
      rwa [List.enum_map_snd] at hmem
    exact hnone p.2 hp2 h hh

/-- Witness for C10: reordering with ids `[5, 7]`, none of which exists in
the store, returns `true` and leaves the store unchanged. -/
theorem reorder_always_true_witness :
    (update_habits_order exReorderStore [5, 7]).2 = true ∧
    (update_habits_order exReorderStore [5, 7]).1 = exReorderStore :=
  ⟨(reorder_always_true exReorderStore [5, 7]).1,
   (reorder_always_true exReorderStore [5, 7]).2 (by decide)⟩

/-- C7 (code bug): `update_habits_order([3])` legitimately assigns the
habit position 0, and the next startup's backfill
(`WHERE sort_order = 0 OR sort_order IS NULL`) cannot tell that assigned 0
from a missing value: it resets the habit's order to its id. -/
theorem backfill_clobbers_assigned_zero :
    (update_habits_order exBackfillStore [3]).1.habits =
      [⟨3, "Read", "B", "#6366F1", 0⟩] ∧
    (initBackfill (update_habits_order exBackfillStore [3]).1).habits =
      [⟨3, "Read", "B", "#6366F1", 3⟩] := by
  constructor <;> rfl

/-- Counterexample to C6 as stated: in a store of four freshly created
habits (all `sort_order = 0`), `reorderHabits([3,1,2])` then listing yields
`[3, 4, 1, 2]` — habit 4's retained order 0 ties with habit 3's new order 0
and places it between 3 and 1, so 3, 1, 2 are not "at the front". -/
theorem reorder312_not_at_front :
    ((get_all_habits (update_habits_order exFourHabits [3, 1, 2]).1).map Habit.id) =
      [3, 4, 1, 2] ∧
    ((get_all_habits (update_habits_order exFourHabits [3, 1, 2]).1).map Habit.id).take 3 ≠
      [3, 1, 2] := by
  constructor
  · rfl
  · decide

theorem habitLe_refl (a : Habit) : habitLe a a = true := by
  simp [habitLe]

theorem habitLe_trans (a b c : Habit) (hab : habitLe a b = true) (hbc : habitLe b c = true) :
    habitLe a c = true := by
  simp only [habitLe, Bool.or_eq_true, Bool.and_eq_true, decide_eq_true_eq, beq_iff_eq]
    at hab hbc ⊢
  omega

theorem habitLe_total (a b : Habit) : (habitLe a b || habitLe b a) = true := by
  simp only [habitLe, Bool.or_eq_true, Bool.and_eq_true, decide_eq_true_eq, beq_iff_eq]
  omega

theorem get_all_habits_sorted (s : Store) :
    (get_all_habits s).Pairwise (fun a b => habitLe a b = true) :=
  List.sorted_insertionSort (fun a b => habitLe a b = true) s.habits

theorem get_all_habits_perm (s : Store) : (get_all_habits s).Perm s.habits :=
  List.perm_insertionSort (fun a b => habitLe a b = true) s.habits

/-- In a `(sort_order, id)`-sorted habit list with no duplicate ids, a habit
strictly below another in the ordering is listed strictly earlier. -/
theorem sorted_indexOf_lt (L : List Habit) :
    L.Pairwise (fun a b => habitLe a b = true) →
    (L.map Habit.id).Nodup → ∀ {a b : Habit}, a ∈ L → b ∈ L →
    habitLe b a = false →
    (L.map Habit.id).indexOf a.id < (L.map Habit.id).indexOf b.id := by
  induction L with
  | nil =>
    intro _ _ a b ha _ _
    cases ha
  | cons c t ih =>
    intro hs hnd a b ha hb hab
    have hinj : ∀ x ∈ c :: t, ∀ y ∈ c :: t, x.id = y.id → x = y :=
      List.inj_on_of_nodup_map hnd
    have hne : b.id ≠ a.id := by
      intro he
      have hba : b = a := hinj b hb a ha he
      rw [hba, habitLe_refl] at hab
      cases hab
    have hnd' : (t.map Habit.id).Nodup := by
      rw [List.map_cons, List.nodup_cons] at hnd
      exact hnd.2
    by_cases hca : c.id = a.id
    · -- a is the head: index 0; b is not the head
      rw [List.map_cons, hca, List.indexOf_cons_self]
      rw [List.indexOf_cons_ne _ (fun he => hne he.symm)]
      omega
    · have hat : a ∈ t := by
        rcases List.mem_cons.mp ha with h | h
        · exact absurd h (fun he => hca (by rw [he]))
        · exact h
      by_cases hcb : c.id = b.id
      · -- b would be the head, but the head is ≤ everything after it
        have hcbe : c = b := hinj c (List.mem_cons_self c t) b hb hcb
        have hle : habitLe c a = true := (List.pairwise_cons.mp hs).1 a hat
        rw [hcbe] at hle
        rw [hle] at hab
        cases hab
      · have hbt : b ∈ t := by
          rcases List.mem_cons.mp hb with h | h
          · exact absurd h (fun he => hcb (by rw [he]))
          · exact h
        have hs' := (List.pairwise_cons.mp hs).2
        have hrec := ih hs' hnd' hat hbt hab
        rw [List.map_cons, List.indexOf_cons_ne _ hca, List.indexOf_cons_ne _ hcb]
        omega

/-- C6 (amended): in a store with distinct habit ids containing habits 3, 1
and 2, `reorderHabits([3,1,2])` assigns them `sort_order` 0, 1, 2 (habits
not listed keep their previous `sort_order`), and the subsequent listing is
exactly the updated habits ordered by `(sort_order, id)`; in particular ids
3, 1, 2 appear in that relative order, though habits not included may be
interleaved among them by their retained `sort_order`. -/
theorem reorder312_relative_order (s : Store) (hn : s.NodupIds)
    (h3 : ∃ h ∈ s.habits, h.id = 3) (h1 : ∃ h ∈ s.habits, h.id = 1)
    (h2 : ∃ h ∈ s.habits, h.id = 2) :
    ((update_habits_order s [3, 1, 2]).1.habits = s.habits.map (fun h =>
      if h.id = 3 then { h with sort_order := 0 }
      else if h.id = 1 then { h with sort_order := 1 }
      else if h.id = 2 then { h with sort_order := 2 } else h)) ∧
    (get_all_habits (update_habits_order s [3, 1, 2]).1).Pairwise
      (fun a b => habitLe a b = true) ∧
    (get_all_habits (update_habits_order s [3, 1, 2]).1).Perm
      (update_habits_order s [3, 1, 2]).1.habits ∧
    ((get_all_habits (update_habits_order s [3, 1, 2]).1).map Habit.id).indexOf 3 <
      ((get_all_habits (update_habits_order s [3, 1, 2]).1).map Habit.id).indexOf 1 ∧
    ((get_all_habits (update_habits_order s [3, 1, 2]).1).map Habit.id).indexOf 1 <
      ((get_all_habits (update_habits_order s [3, 1, 2]).1).map Habit.id).indexOf 2 := by
  obtain ⟨u3, hu3, hid3⟩ := h3
  obtain ⟨u1, hu1, hid1⟩ := h1
  obtain ⟨u2, hu2, hid2⟩ := h2
  have hupd : (update_habits_order s [3, 1, 2]).1.habits = s.habits.map (fun h =>
      if h.id = 3 then { h with sort_order := 0 }
      else if h.id = 1 then { h with sort_order := 1 }
      else if h.id = 2 then { h with sort_order := 2 } else h) := by
    show ((s.habits.map (fun h => if h.id = 3 then { h with sort_order := 0 } else h)).map
        (fun h => if h.id = 1 then { h with sort_order := 1 } else h)).map
        (fun h => if h.id = 2 then { h with sort_order := 2 } else h) = _
    rw [List.map_map, List.map_map]
    apply List.map_congr_left
    intro h _
    by_cases e3 : h.id = 3
    · simp [Function.comp, e3]
    · by_cases e1 : h.id = 1
      · simp [Function.comp, e3, e1]
      · by_cases e2 : h.id = 2
        · simp [Function.comp, e3, e1, e2]
        · simp [Function.comp, e3, e1, e2]
  have hidsame : (update_habits_order s [3, 1, 2]).1.habits.map Habit.id =
      s.habits.map Habit.id := by
    rw [hupd, List.map_map]
    apply List.map_congr_left
    intro h _
    by_cases e3 : h.id = 3
    · simp [Function.comp, e3]
    · by_cases e1 : h.id = 1
      · simp [Function.comp, e3, e1]
      · by_cases e2 : h.id = 2
        · simp [Function.comp, e3, e1, e2]
        · simp [Function.comp, e3, e1, e2]
  have hsorted := get_all_habits_sorted (update_habits_order s [3, 1, 2]).1
  have hperm := get_all_habits_perm (update_habits_order s [3, 1, 2]).1
  have hnodup : ((get_all_habits (update_habits_order s [3, 1, 2]).1).map Habit.id).Nodup := by
    have hpm : (get_all_habits (update_habits_order s [3, 1, 2]).1).map Habit.id =
        (get_all_habits (update_habits_order s [3, 1, 2]).1).map Habit.id := rfl
    have hp2 : ((get_all_habits (update_habits_order s [3, 1, 2]).1).map Habit.id).Perm
        ((update_habits_order s [3, 1, 2]).1.habits.map Habit.id) := hperm.map Habit.id
    rw [hidsame] at hp2
    exact (hp2.nodup_iff).mpr hn
  -- the three listed habits and their updated orders
  have hm3 : ({ u3 with sort_order := 0 } : Habit) ∈
      (update_habits_order s [3, 1, 2]).1.habits := by
    rw [hupd]
    refine List.mem_map.mpr ⟨u3, hu3, ?_⟩
    rw [if_pos hid3]
  have hm1 : ({ u1 with sort_order := 1 } : Habit) ∈
      (update_habits_order s [3, 1, 2]).1.habits := by
    rw [hupd]
    refine List.mem_map.mpr ⟨u1, hu1, ?_⟩
    rw [if_neg (by show u1.id ≠ 3; omega), if_pos hid1]
  have hm2 : ({ u2 with sort_order := 2 } : Habit) ∈
      (update_habits_order s [3, 1, 2]).1.habits := by
    rw [hupd]
    refine List.mem_map.mpr ⟨u2, hu2, ?_⟩
    rw [if_neg (by show u2.id ≠ 3; omega), if_neg (by show u2.id ≠ 1; omega),
      if_pos hid2]
  have hL3 : ({ u3 with sort_order := 0 } : Habit) ∈
      get_all_habits (update_habits_order s [3, 1, 2]).1 := hperm.mem_iff.mpr hm3
  have hL1 : ({ u1 with sort_order := 1 } : Habit) ∈
      get_all_habits (update_habits_order s [3, 1, 2]).1 := hperm.mem_iff.mpr hm1
  have hL2 : ({ u2 with sort_order := 2 } : Habit) ∈
      get_all_habits (update_habits_order s [3, 1, 2]).1 := hperm.mem_iff.mpr hm2
  have hlt31 := sorted_indexOf_lt _ hsorted hnodup hL3 hL1
    (by simp [habitLe])
  have hlt12 := sorted_indexOf_lt _ hsorted hnodup hL1 hL2
    (by simp [habitLe])
  refine ⟨hupd, hsorted, hperm, ?_, ?_⟩
  · have e3 : ({ u3 with sort_order := 0 } : Habit).id = 3 := hid3
    have e1 : ({ u1 with sort_order := 1 } : Habit).id = 1 := hid1
    rw [e3, e1] at hlt31
    exact hlt31
  · have e1 : ({ u1 with sort_order := 1 } : Habit).id = 1 := hid1
    have e2 : ({ u2 with sort_order := 2 } : Habit).id = 2 := hid2
    rw [e1, e2] at hlt12
    exact hlt12

/-- Witness for the amended C6 on the four-habit store. -/
theorem reorder312_relative_order_witness :
    exFourHabits.NodupIds ∧
    (∃ h ∈ exFourHabits.habits, h.id = 3) ∧
    (∃ h ∈ exFourHabits.habits, h.id = 1) ∧
    (∃ h ∈ exFourHabits.habits, h.id = 2) ∧
    (((update_habits_order exFourHabits [3, 1, 2]).1.habits = exFourHabits.habits.map (fun h =>
      if h.id = 3 then { h with sort_order := 0 }
      else if h.id = 1 then { h with sort_order := 1 }
      else if h.id = 2 then { h with sort_order := 2 } else h)) ∧
    (get_all_habits (update_habits_order exFourHabits [3, 1, 2]).1).Pairwise
      (fun a b => habitLe a b = true) ∧
    (get_all_habits (update_habits_order exFourHabits [3, 1, 2]).1).Perm
      (update_habits_order exFourHabits [3, 1, 2]).1.habits ∧
    ((get_all_habits (update_habits_order exFourHabits [3, 1, 2]).1).map Habit.id).indexOf 3 <
      ((get_all_habits (update_habits_order exFourHabits [3, 1, 2]).1).map Habit.id).indexOf 1 ∧
    ((get_all_habits (update_habits_order exFourHabits [3, 1, 2]).1).map Habit.id).indexOf 1 <
      ((get_all_habits (update_habits_order exFourHabits [3, 1, 2]).1).map Habit.id).indexOf 2) :=
  ⟨by decide, by decide, by decide, by decide,
   reorder312_relative_order exFourHabits (by decide) (by decide) (by decide) (by decide)⟩

theorem round1_zero : round1 0 = 0 := by
  unfold round1
  norm_num

/-- C5: rate computations resolve to 0 on zero denominators instead of
failing: with no habits the dashboard completion rate and every weekly
percentage are 0, and a daily report for a date with no habits and no
tasks has all three rates 0 (in particular `overall_score = 0`). -/
theorem rates_zero_on_zero_denominator (today : Date) (s : Store) (dstr : String) :
    (s.habits = [] →
      (get_statistics today s).completion_rate = 0 ∧
      ∀ w ∈ (get_statistics today s).weekly_data, w.percentage = 0) ∧
    (s.habits = [] → s.tasks.filter (fun t => t.date = dstr) = [] →
      (get_daily_report s dstr).habits_total = 0 ∧
      (get_daily_report s dstr).tasks_total = 0 ∧
      (get_daily_report s dstr).habit_rate = 0 ∧
      (get_daily_report s dstr).task_rate = 0 ∧
      (get_daily_report s dstr).overall_score = 0) := by
  constructor
  · intro hh
    constructor
    · show round1 (if s.habits.length > 0 then
        ((s.completions.filter (fun c => c.2 = today.isoformat)).length : ℚ) /
          s.habits.length * 100 else 0) = 0
      rw [hh]
      simp [round1_zero]
    · intro w hw
      simp only [get_statistics, List.mem_map] at hw
      obtain ⟨k, _, hk⟩ := hw
      rw [hh] at hk
      simp only [List.length_nil, gt_iff_lt, Nat.lt_irrefl, if_false] at hk
      rw [← hk]
      exact round1_zero
  · intro hh ht
    have hhe : s.habits.insertionSort (fun a b => habitLe a b = true) = [] := by
      rw [hh]; rfl
    have hte : (s.tasks.filter (fun t => t.date = dstr)).insertionSort
        (fun a b => taskTimeLe a b = true) = [] := by
      rw [ht]; rfl
    refine ⟨?_, ?_, ?_, ?_, ?_⟩ <;>
      simp [get_daily_report, hhe, hte, round1_zero]

/-- Witness for C5 on the empty store. -/
theorem rates_zero_on_zero_denominator_witness :
    (get_statistics ⟨2024, 6, 1⟩ (Store.mk [] [] [])).completion_rate = 0 ∧
    (∀ w ∈ (get_statistics ⟨2024, 6, 1⟩ (Store.mk [] [] [])).weekly_data,
      w.percentage = 0) ∧
    (get_daily_report (Store.mk [] [] []) "2024-06-01").overall_score = 0 :=
  ⟨((rates_zero_on_zero_denominator ⟨2024, 6, 1⟩ (Store.mk [] [] []) "2024-06-01").1 rfl).1,
   ((rates_zero_on_zero_denominator ⟨2024, 6, 1⟩ (Store.mk [] [] []) "2024-06-01").1 rfl).2,
   ((rates_zero_on_zero_denominator ⟨2024, 6, 1⟩ (Store.mk [] [] [])
      "2024-06-01").2 rfl rfl).2.2.2.2⟩

/-! ## Month-query string lemmas -/

theorem digitChar_ne_dash {k : Nat} (h : k < 10) : digitChar k ≠ '-' := by
  interval_cases k <;> decide

theorem dash_not_mem_pad4 (n : Nat) : '-' ∉ pad4Chars n := by
  unfold pad4Chars
  have h := fun x : Nat => Nat.mod_lt x (y := 10) (by norm_num)
  simp only [List.mem_cons, List.not_mem_nil, or_false]
  push_neg
  exact ⟨(digitChar_ne_dash (h _)).symm, (digitChar_ne_dash (h _)).symm,
    (digitChar_ne_dash (h _)).symm, (digitChar_ne_dash (h _)).symm⟩

theorem dash_not_mem_pad2 (n : Nat) : '-' ∉ pad2Chars n := by
  unfold pad2Chars
  have h := fun x : Nat => Nat.mod_lt x (y := 10) (by norm_num)
  simp only [List.mem_cons, List.not_mem_nil, or_false]
  push_neg
  exact ⟨(digitChar_ne_dash (h _)).symm, (digitChar_ne_dash (h _)).symm⟩

theorem splitDash_append {a : List Char} (rest : List Char) (ha : '-' ∉ a) :
    splitDash (a ++ '-' :: rest) = a :: splitDash rest := by
  induction a with
  | nil =>
    show (if ('-' : Char) = '-' then [] :: splitDash rest
      else splitDashAux '-' (splitDash rest)) = [] :: splitDash rest
    rw [if_pos rfl]
  | cons c t ih =>
    have hc : c ≠ '-' := fun he => ha (he ▸ List.mem_cons_self c t)
    have ht : '-' ∉ t := fun hm => ha (List.mem_cons_of_mem c hm)
    show (if c = '-' then [] :: splitDash (t ++ '-' :: rest)
      else splitDashAux c (splitDash (t ++ '-' :: rest))) = _
    rw [if_neg hc, ih ht]
    rfl

theorem splitDash_no_dash {a : List Char} (ha : '-' ∉ a) : splitDash a = [a] := by
  induction a with
  | nil => rfl
  | cons c t ih =>
    have hc : c ≠ '-' := fun he => ha (he ▸ List.mem_cons_self c t)
    have ht : '-' ∉ t := fun hm => ha (List.mem_cons_of_mem c hm)
    show (if c = '-' then [] :: splitDash t else splitDashAux c (splitDash t)) = _
    rw [if_neg hc, ih ht]
    rfl

theorem splitDash_isoformat (d : Date) :
    splitDash d.isoformat.data =
      [pad4Chars d.year, pad2Chars d.month, pad2Chars d.day] := by
  show splitDash (pad4Chars d.year ++ '-' :: (pad2Chars d.month ++ '-' :: pad2Chars d.day)) = _
  rw [splitDash_append _ (dash_not_mem_pad4 _),
    splitDash_append _ (dash_not_mem_pad2 _),
    splitDash_no_dash (dash_not_mem_pad2 _)]

theorem digitsVal_pad2 {n : Nat} (h : n < 100) : digitsVal (pad2Chars n) = n := by
  unfold digitsVal pad2Chars
  simp only [List.foldl_cons, List.foldl_nil]
  rw [digitVal_digitChar (Nat.mod_lt _ (by norm_num)),
    digitVal_digitChar (Nat.mod_lt _ (by norm_num))]
  omega

/-- On a valid date's ISO string, `int(s.split("-")[2])` is the day of the
month. -/
theorem dayOfDateStr_isoformat {d : Date} (h : d.Valid) :
    dayOfDateStr d.isoformat = d.day := by
  unfold dayOfDateStr
  rw [splitDash_isoformat]
  have hd : d.day < 100 := by
    have := daysInMonth_le d.year d.month
    have := h.2.2.2.2.2
    omega
  exact digitsVal_pad2 hd

theorem pad4_inj {a b : Nat} (ha : a ≤ 9999) (hb : b ≤ 9999)
    (h : pad4Chars a = pad4Chars b) : a = b := by
  unfold pad4Chars at h
  have h1 := congrArg digitsVal h
  unfold digitsVal at h1
  simp only [List.foldl_cons, List.foldl_nil] at h1
  rw [digitVal_digitChar (Nat.mod_lt _ (by norm_num)),
    digitVal_digitChar (Nat.mod_lt _ (by norm_num)),
    digitVal_digitChar (Nat.mod_lt _ (by norm_num)),
    digitVal_digitChar (Nat.mod_lt _ (by norm_num)),
    digitVal_digitChar (Nat.mod_lt _ (by norm_num)),
    digitVal_digitChar (Nat.mod_lt _ (by norm_num)),
    digitVal_digitChar (Nat.mod_lt _ (by norm_num)),
    digitVal_digitChar (Nat.mod_lt _ (by norm_num))] at h1
  omega

theorem pad2_inj {a b : Nat} (ha : a < 100) (hb : b < 100)
    (h : pad2Chars a = pad2Chars b) : a = b := by
  have h1 := congrArg digitsVal h
  rw [digitsVal_pad2 ha, digitsVal_pad2 hb] at h1
  exact h1

/-- The `date LIKE 'YYYY-MM%'` filter of `get_habit_completions` hits
exactly the valid dates of that calendar month (for fully zero-padded
stored dates). -/
theorem likeMatch_iff {d : Date} (hd : d.Valid) {year month : Nat}
    (hy : year ≤ 9999) (hm : month ≤ 99) :
    likeMatch (monthPat year month) d.isoformat = true ↔
      d.year = year ∧ d.month = month := by
  unfold likeMatch monthPat Date.isoformat
  rw [List.isPrefixOf_iff_prefix]
  constructor
  · rintro ⟨t, ht⟩
    simp only [List.append_assoc, List.cons_append] at ht
    -- align the two year blocks, then the two month blocks
    have hlen : (pad4Chars year).length = (pad4Chars d.year).length := rfl
    obtain ⟨hy4, hrest⟩ := List.append_inj ht hlen
    rw [List.cons.injEq] at hrest
    obtain ⟨-, hrest2⟩ := hrest
    have hlen2 : (pad2Chars month).length = (pad2Chars d.month).length := rfl
    obtain ⟨hm2, -⟩ := List.append_inj hrest2 hlen2
    have hdm : d.month ≤ 99 := by
      have := hd.2.2.2.1
      omega
    have hdy : d.year ≤ 9999 := hd.2.1
    exact ⟨(pad4_inj hy hdy hy4).symm, (pad2_inj (by omega) (by omega) hm2).symm⟩
  · rintro ⟨hyy, hmm⟩
    subst hyy
    subst hmm
    exact ⟨'-' :: pad2Chars d.day, by simp⟩

/-! ## Dictionary-building lemmas (`get_habit_completions` fold) -/

theorem find?_addDay_map (t : List (Nat × List Nat)) (hid day : Nat) :
    (t.map (fun e => if e.1 = hid then (e.1, e.2 ++ [day]) else e)).find?
        (fun e => e.1 = hid) =
      (t.find? (fun e => e.1 = hid)).map
        (fun e => if e.1 = hid then (e.1, e.2 ++ [day]) else e) := by
  induction t with
  | nil => rfl
  | cons e t ih =>
    by_cases he : e.1 = hid
    · rw [List.map_cons, if_pos he,
        List.find?_cons_of_pos _ (by simpa using he),
        List.find?_cons_of_pos _ (by simpa using he)]
      simp [he]
    · rw [List.map_cons, if_neg he,
        List.find?_cons_of_neg _ (by simpa using he),
        List.find?_cons_of_neg _ (by simpa using he)]
      exact ih

theorem find?_addDay_map_other (t : List (Nat × List Nat)) (hid day k : Nat)
    (hne : k ≠ hid) :
    (t.map (fun e => if e.1 = hid then (e.1, e.2 ++ [day]) else e)).find?
        (fun e => e.1 = k) =
      t.find? (fun e => e.1 = k) := by
  induction t with
  | nil => rfl
  | cons e t ih =>
    by_cases he : e.1 = k
    · rw [List.map_cons, if_neg (by omega),
        List.find?_cons_of_pos _ (by simpa using he),
        List.find?_cons_of_pos _ (by simpa using he)]
    · by_cases hh : e.1 = hid
      · rw [List.map_cons, if_pos hh,
          List.find?_cons_of_neg _ (by simpa using he),
          List.find?_cons_of_neg _ (by simpa using he)]
        exact ih
      · rw [List.map_cons, if_neg hh,
          List.find?_cons_of_neg _ (by simpa using he),
          List.find?_cons_of_neg _ (by simpa using he)]
        exact ih

theorem lookupDays_addDay_same (acc : List (Nat × List Nat)) (hid day : Nat) :
    lookupDays (addDay acc hid day) hid = lookupDays acc hid ++ [day] := by
  unfold addDay lookupDays
  by_cases hany : (acc.any (fun e => e.1 = hid)) = true
  · rw [if_pos hany, find?_addDay_map]
    rw [List.any_eq_true] at hany
    obtain ⟨e, he, hp⟩ := hany
    cases hfind : acc.find? (fun e => e.1 = hid) with
    | none =>
      rw [List.find?_eq_none] at hfind
      exact absurd hp (hfind e he)
    | some e0 =>
      have hp0 : e0.1 = hid := by
        simpa using List.find?_some hfind
      simp [hp0]
  · rw [if_neg hany, List.find?_append]
    have hnone : acc.find? (fun e => e.1 = hid) = none := by
      rw [List.find?_eq_none]
      intro x hx
      intro hp
      exact hany (List.any_eq_true.mpr ⟨x, hx, hp⟩)
    rw [hnone]
    simp

theorem lookupDays_addDay_other (acc : List (Nat × List Nat)) (hid day k : Nat)
    (hne : k ≠ hid) :
    lookupDays (addDay acc hid day) k = lookupDays acc k := by
  unfold addDay lookupDays
  by_cases hany : (acc.any (fun e => e.1 = hid)) = true
  · rw [if_pos hany, find?_addDay_map_other _ _ _ _ hne]
  · rw [if_neg hany, List.find?_append]
    have hsingle : (([(hid, [day])] : List (Nat × List Nat)).find?
        (fun e => e.1 = k)) = none := by
      rw [List.find?_eq_none]
      intro x hx
      simp only [List.mem_singleton] at hx
      subst hx
      simpa using fun he => hne he.symm
    rw [hsingle]
    cases acc.find? (fun e => e.1 = k) <;> rfl

theorem lookupDays_fold (rows : List (Nat × String)) :
    ∀ (acc : List (Nat × List Nat)) (hid : Nat),
    lookupDays (rows.foldl (fun acc c => addDay acc c.1 (dayOfDateStr c.2)) acc) hid =
      lookupDays acc hid ++
        (rows.filter (fun c => c.1 = hid)).map (fun c => dayOfDateStr c.2) := by
  induction rows with
  | nil =>
    intro acc hid
    simp
  | cons r t ih =>
    intro acc hid
    rw [List.foldl_cons, ih]
    by_cases hr : r.1 = hid
    · rw [List.filter_cons_of_pos (by simpa using hr), ← hr,
        lookupDays_addDay_same]
      simp [hr]
    · rw [List.filter_cons_of_neg (by simpa using hr),
        lookupDays_addDay_other _ _ _ _ (fun he => hr he.symm)]

theorem keys_addDay (acc : List (Nat × List Nat)) (hid day k : Nat) :
    (∃ e ∈ addDay acc hid day, e.1 = k) ↔ (∃ e ∈ acc, e.1 = k) ∨ k = hid := by
  unfold addDay
  by_cases hany : (acc.any (fun e => e.1 = hid)) = true
  · rw [if_pos hany]
    constructor
    · rintro ⟨e, he, hk⟩
      rw [List.mem_map] at he
      obtain ⟨e0, he0, hfe⟩ := he
      left
      refine ⟨e0, he0, ?_⟩
      rw [← hk, ← hfe]
      by_cases h0 : e0.1 = hid <;> simp [h0]
    · rintro (⟨e, he, hk⟩ | hk)
      · refine ⟨_, List.mem_map_of_mem _ he, ?_⟩
        by_cases h0 : e.1 = hid
        · rw [if_pos h0]
          exact hk
        · rw [if_neg h0]
          exact hk
      · rw [List.any_eq_true] at hany
        obtain ⟨e, he, hp⟩ := hany
        simp only [decide_eq_true_eq] at hp
        refine ⟨_, List.mem_map_of_mem _ he, ?_⟩
        rw [if_pos hp]
        show e.1 = k
        omega
  · rw [if_neg hany]
    constructor
    · rintro ⟨e, he, hk⟩
      rcases List.mem_append.mp he with h | h
      · exact Or.inl ⟨e, h, hk⟩
      · right
        simp only [List.mem_singleton] at h
        subst h
        exact hk.symm
    · rintro (⟨e, he, hk⟩ | hk)
      · exact ⟨e, List.mem_append_left _ he, hk⟩
      · exact ⟨(hid, [day]), List.mem_append_right _ (by simp), hk.symm⟩

theorem keys_fold (rows : List (Nat × String)) :
    ∀ (acc : List (Nat × List Nat)) (k : Nat),
    (∃ e ∈ rows.foldl (fun acc c => addDay acc c.1 (dayOfDateStr c.2)) acc, e.1 = k) ↔
      (∃ e ∈ acc, e.1 = k) ∨ (∃ c ∈ rows, c.1 = k) := by
  induction rows with
  | nil =>
    intro acc k
    simp
  | cons r t ih =>
    intro acc k
    rw [List.foldl_cons, ih, keys_addDay]
    constructor
    · rintro ((h | h) | h)
      · exact Or.inl h
      · exact Or.inr ⟨r, List.mem_cons_self r t, h.symm⟩
      · obtain ⟨c, hc, hk⟩ := h
        exact Or.inr ⟨c, List.mem_cons_of_mem r hc, hk⟩
    · rintro (h | ⟨c, hc, hk⟩)
      · exact Or.inl (Or.inl h)
      · rcases List.mem_cons.mp hc with he | he
        · exact Or.inl (Or.inr (he ▸ hk.symm))
        · exact Or.inr ⟨c, he, hk⟩

/-- C4: for a store whose completion dates are fully zero-padded ISO
strings of valid dates, `monthCompletions(year, month)` contains, per habit
id, exactly the days of that month on which the habit has a completion
record; a habit id is a key exactly when it has at least one completion in
the month, and no day from an adjacent month ever appears. -/
theorem monthCompletions_exact (s : Store) (year month : Nat)
    (hwf : s.DatesWF) (hy : year ≤ 9999) (hm : month ≤ 99) :
    (∀ hid day,
      day ∈ lookupDays (get_habit_completions s year month) hid ↔
        ∃ d : Date, d.Valid ∧ d.year = year ∧ d.month = month ∧ d.day = day ∧
          (hid, d.isoformat) ∈ s.completions) ∧
    (∀ hid, (∃ e ∈ get_habit_completions s year month, e.1 = hid) ↔
      ∃ d : Date, d.Valid ∧ d.year = year ∧ d.month = month ∧
        (hid, d.isoformat) ∈ s.completions) := by
  have hrow : ∀ c ∈ s.completions, ∃ d : Date, d.Valid ∧ c.2 = d.isoformat := by
    intro c hc
    have := hwf c hc
    rw [Option.isSome_iff_exists] at this
    obtain ⟨d, hd⟩ := this
    obtain ⟨hv, he⟩ := parseDate_sound hd
    exact ⟨d, hv, he⟩
  constructor
  · intro hid day
    unfold get_habit_completions
    rw [lookupDays_fold]
    have hnil : lookupDays [] hid = [] := rfl
    rw [hnil, List.nil_append, List.mem_map]
    constructor
    · rintro ⟨c, hcmem, hday⟩
      rw [List.mem_filter] at hcmem
      obtain ⟨hcf, hchid⟩ := hcmem
      rw [List.mem_filter] at hcf
      obtain ⟨hcs, hclike⟩ := hcf
      obtain ⟨d, hv, he⟩ := hrow c hcs
      rw [he] at hclike
      obtain ⟨hdy, hdm⟩ := (likeMatch_iff hv hy hm).mp hclike
      simp only [decide_eq_true_eq] at hchid
      refine ⟨d, hv, hdy, hdm, ?_, ?_⟩
      · rw [← hday, he, dayOfDateStr_isoformat hv]
      · rw [← hchid, ← he]
        exact hcs
    · rintro ⟨d, hv, hdy, hdm, hdd, hmem⟩
      refine ⟨(hid, d.isoformat), ?_, ?_⟩
      · rw [List.mem_filter]
        refine ⟨?_, by simp⟩
        rw [List.mem_filter]
        refine ⟨hmem, ?_⟩
        simp only
        exact (likeMatch_iff hv hy hm).mpr ⟨hdy, hdm⟩
      · show dayOfDateStr d.isoformat = day
        rw [dayOfDateStr_isoformat hv]
        exact hdd
  · intro hid
    unfold get_habit_completions
    rw [keys_fold]
    simp only [List.not_mem_nil, false_and, exists_false, false_or]
    constructor
    · rintro ⟨c, hcmem, hchid⟩
      rw [List.mem_filter] at hcmem
      obtain ⟨hcs, hclike⟩ := hcmem
      obtain ⟨d, hv, he⟩ := hrow c hcs
      rw [he] at hclike
      obtain ⟨hdy, hdm⟩ := (likeMatch_iff hv hy hm).mp hclike
      exact ⟨d, hv, hdy, hdm, by rw [← hchid, ← he]; exact hcs⟩
    · rintro ⟨d, hv, hdy, hdm, hmem⟩
      refine ⟨(hid, d.isoformat), ?_, rfl⟩
      rw [List.mem_filter]
      refine ⟨hmem, ?_⟩
      simp only
      exact (likeMatch_iff hv hy hm).mpr ⟨hdy, hdm⟩

/-- Witness for C4 on a store with completions in two adjacent months. -/
theorem monthCompletions_exact_witness :
    exMonthStore.DatesWF ∧ 2024 ≤ 9999 ∧ 6 ≤ 99 ∧
    ((∀ hid day,
      day ∈ lookupDays (get_habit_completions exMonthStore 2024 6) hid ↔
        ∃ d : Date, d.Valid ∧ d.year = 2024 ∧ d.month = 6 ∧ d.day = day ∧
          (hid, d.isoformat) ∈ exMonthStore.completions) ∧
    (∀ hid, (∃ e ∈ get_habit_completions exMonthStore 2024 6, e.1 = hid) ↔
      ∃ d : Date, d.Valid ∧ d.year = 2024 ∧ d.month = 6 ∧
        (hid, d.isoformat) ∈ exMonthStore.completions)) :=
  ⟨by decide, by norm_num, by norm_num,
   monthCompletions_exact exMonthStore 2024 6 (by decide) (by norm_num) (by norm_num)⟩

/-! ## Per-habit current-streak lemmas -/

/-- The `while True` walk counts a prefix of present days and stops at the
first absent one (as long as fuel remains). -/
theorem currentStreakAux_spec (comps : List String) :
    ∀ (fuel : Nat) (d : Date),
      currentStreakAux comps fuel d ≤ fuel ∧
      (∀ i < currentStreakAux comps fuel d, (d.predIter i).isoformat ∈ comps) ∧
      (currentStreakAux comps fuel d < fuel →
        (d.predIter (currentStreakAux comps fuel d)).isoformat ∉ comps) := by
  intro fuel
  induction fuel with
  | zero =>
    intro d
    exact ⟨le_refl 0, fun i hi => absurd (show i < 0 from hi) (by omega),
      fun h => absurd (show (0 : Nat) < 0 from h) (by omega)⟩
  | succ n ih =>
    intro d
    unfold currentStreakAux
    by_cases hm : d.isoformat ∈ comps
    · rw [if_pos hm]
      obtain ⟨h1, h2, h3⟩ := ih d.pred
      refine ⟨by omega, ?_, ?_⟩
      · intro i hi
        cases i with
        | zero => exact hm
        | succ k => exact h2 k (by omega)
      · intro hlt
        exact h3 (by omega)
    · rw [if_neg hm]
      exact ⟨by omega, fun i hi => absurd hi (by omega), fun _ => hm⟩

/-- Counted days have distinct date strings, so the walk ends strictly
before the fuel runs out. -/
theorem currentStreakAux_lt_fuel (comps : List String) {today : Date}
    (hv : today.Valid) (hlen : comps.length < today.toOrdinal) :
    currentStreakAux comps (comps.length + 1) today < comps.length + 1 := by
  by_contra hcon
  push_neg at hcon
  have h1 := (currentStreakAux_spec comps (comps.length + 1) today).1
  have heq : currentStreakAux comps (comps.length + 1) today = comps.length + 1 :=
    le_antisymm h1 hcon
  have h2 := (currentStreakAux_spec comps (comps.length + 1) today).2.1
  rw [heq] at h2
  have hvalid : ∀ i, i ≤ comps.length →
      (today.predIter i).Valid ∧ (today.predIter i).toOrdinal = today.toOrdinal - i :=
    fun i hi => predIter_valid_ordinal hv i (by omega)
  have hinj : Set.InjOn (fun i => (today.predIter i).isoformat)
      ↑(Finset.range (comps.length + 1)) := by
    intro i hi j hj he
    simp only [Finset.coe_range, Set.mem_Iio] at hi hj
    have hvi := hvalid i (by omega)
    have hvj := hvalid j (by omega)
    have : (today.predIter i).toOrdinal = (today.predIter j).toOrdinal := by
      rw [isoformat_inj hvi.1 hvj.1 he]
    rw [hvi.2, hvj.2] at this
    omega
  have hmaps : ∀ i ∈ Finset.range (comps.length + 1),
      (today.predIter i).isoformat ∈ comps.toFinset := by
    intro i hi
    rw [List.mem_toFinset]
    exact h2 i (by simpa using hi)
  have hcard := Finset.card_le_card_of_injOn _ hmaps hinj
  rw [Finset.card_range] at hcard
  have := List.toFinset_card_le comps
  omega

/-- Membership in the habit's retrieved date list is membership of the
`(habit_id, date)` row. -/
theorem mem_habitDatesDesc (s : Store) (hid : Nat) (x : String) :
    x ∈ habitDatesDesc s hid ↔ (hid, x) ∈ s.completions := by
  unfold habitDatesDesc
  rw [(List.perm_insertionSort _ _).mem_iff, List.mem_map]
  constructor
  · rintro ⟨c, hc, he⟩
    rw [List.mem_filter] at hc
    obtain ⟨hcs, hchid⟩ := hc
    simp only [decide_eq_true_eq] at hchid
    rwa [← pair_eq_of hchid he]
  · intro hmem
    refine ⟨(hid, x), ?_, rfl⟩
    rw [List.mem_filter]
    exact ⟨hmem, by simp⟩

theorem habitDatesDesc_length (s : Store) (hid : Nat) :
    (habitDatesDesc s hid).length =
      (s.completions.filter (fun c => c.1 = hid)).length := by
  unfold habitDatesDesc
  rw [(List.perm_insertionSort _ _).length_eq, List.length_map]

/-! ## Per-habit best-streak lemmas -/

theorem hasRun_le_card (S : Finset Nat) {n : Nat} (h : HasRun S n) : n ≤ S.card := by
  rcases h with h0 | ⟨a, ha, hrun⟩
  · omega
  · have hmaps : ∀ i ∈ Finset.range n, a + i ∈ S := fun i hi =>
      hrun i (by simpa using hi)
    have hinj : Set.InjOn (fun i => a + i) ↑(Finset.range n) := by
      intro i _ j _ he
      simp only at he
      omega
    have := Finset.card_le_card_of_injOn _ hmaps hinj
    rwa [Finset.card_range] at this

theorem hasRun_max {S : Finset Nat} {a b : Nat} (ha : HasRun S a) (hb : HasRun S b) :
    HasRun S (max a b) := by
  rcases max_choice a b with h | h <;> rw [h] <;> assumption

/-- Every value the scan can return is the length of an actual run of
consecutive day ordinals. -/
theorem bestGo_hasRun (S : Finset Nat) :
    ∀ (rest : List Date) (prev : Date) (streak best : Nat),
    (∀ d ∈ rest, d.toOrdinal ∈ S) →
    (1 ≤ streak ∧ ∃ a, a + (streak - 1) = prev.toOrdinal ∧ ∀ i < streak, a + i ∈ S) →
    HasRun S best →
    HasRun S (bestGo rest prev streak best) := by
  intro rest
  induction rest with
  | nil =>
    intro prev streak best _ hre hbest
    obtain ⟨hs1, a, hend, hrun⟩ := hre
    exact hasRun_max hbest (Or.inr ⟨a, hrun 0 (by omega), hrun⟩)
  | cons d t ih =>
    intro prev streak best hmem hre hbest
    obtain ⟨hs1, a, hend, hrun⟩ := hre
    show HasRun S (if d.toOrdinal - prev.toOrdinal = 1 then bestGo t d (streak + 1) best
      else bestGo t d 1 (max best streak))
    by_cases hdiff : d.toOrdinal - prev.toOrdinal = 1
    · rw [if_pos hdiff]
      refine ih d (streak + 1) best (fun e he => hmem e (List.mem_cons_of_mem d he))
        ⟨by omega, a, by omega, ?_⟩ hbest
      intro i hi
      by_cases hilt : i < streak
      · exact hrun i hilt
      · have hieq : i = streak := by omega
        have hds : a + streak = d.toOrdinal := by omega
        rw [hieq, hds]
        exact hmem d (List.mem_cons_self d t)
    · rw [if_neg hdiff]
      refine ih d 1 (max best streak) (fun e he => hmem e (List.mem_cons_of_mem d he))
        ⟨le_refl 1, d.toOrdinal, by omega, ?_⟩
        (hasRun_max hbest (Or.inr ⟨a, hrun 0 (by omega), hrun⟩))
      intro i hi
      have hi0 : i = 0 := by omega
      rw [hi0, Nat.add_zero]
      exact hmem d (List.mem_cons_self d t)

theorem bestScan_hasRun (S : Finset Nat) (l : List Date)
    (hmem : ∀ d ∈ l, d.toOrdinal ∈ S) : HasRun S (bestScan l) := by
  cases l with
  | nil => exact Or.inl rfl
  | cons x t =>
    show HasRun S (bestGo t x 1 0)
    refine bestGo_hasRun S t x 1 0 (fun e he => hmem e (List.mem_cons_of_mem x he))
      ⟨le_refl 1, x.toOrdinal, by omega, ?_⟩ (Or.inl rfl)
    intro i hi
    have hi0 : i = 0 := by omega
    rw [hi0, Nat.add_zero]
    exact hmem x (List.mem_cons_self x t)

theorem bestGo_mono : ∀ (rest : List Date) (prev : Date) {s b s' b' : Nat},
    s' ≤ s → b' ≤ b → bestGo rest prev s' b' ≤ bestGo rest prev s b := by
  intro rest
  induction rest with
  | nil =>
    intro prev s b s' b' hs hb
    show max b' s' ≤ max b s
    omega
  | cons d t ih =>
    intro prev s b s' b' hs hb
    show (if d.toOrdinal - prev.toOrdinal = 1 then bestGo t d (s' + 1) b'
        else bestGo t d 1 (max b' s')) ≤
      (if d.toOrdinal - prev.toOrdinal = 1 then bestGo t d (s + 1) b
        else bestGo t d 1 (max b s))
    by_cases hdiff : d.toOrdinal - prev.toOrdinal = 1
    · rw [if_pos hdiff, if_pos hdiff]
      exact ih d (by omega) hb
    · rw [if_neg hdiff, if_neg hdiff]
      exact ih d (le_refl 1) (by omega)

theorem bestGo_ge_best : ∀ (rest : List Date) (prev : Date) (s b : Nat),
    b ≤ bestGo rest prev s b := by
  intro rest
  induction rest with
  | nil =>
    intro prev s b
    show b ≤ max b s
    omega
  | cons d t ih =>
    intro prev s b
    show b ≤ (if d.toOrdinal - prev.toOrdinal = 1 then bestGo t d (s + 1) b
      else bestGo t d 1 (max b s))
    by_cases hdiff : d.toOrdinal - prev.toOrdinal = 1
    · rw [if_pos hdiff]
      exact ih d (s + 1) b
    · rw [if_neg hdiff]
      exact le_trans (by omega) (ih d 1 (max b s))

theorem bestGo_ge_streak : ∀ (rest : List Date) (prev : Date) (s b : Nat),
    s ≤ bestGo rest prev s b := by
  intro rest
  induction rest with
  | nil =>
    intro prev s b
    show s ≤ max b s
    omega
  | cons d t ih =>
    intro prev s b
    show s ≤ (if d.toOrdinal - prev.toOrdinal = 1 then bestGo t d (s + 1) b
      else bestGo t d 1 (max b s))
    by_cases hdiff : d.toOrdinal - prev.toOrdinal = 1
    · rw [if_pos hdiff]
      exact le_trans (by omega) (ih d (s + 1) b)
    · rw [if_neg hdiff]
      exact le_trans (by omega) (bestGo_ge_best t d 1 (max b s))

theorem bestGo_cons_ge_scan (t : List Date) (x : Date) :
    bestScan t ≤ bestGo t x 1 0 := by
  cases t with
  | nil => exact Nat.zero_le _
  | cons y t' =>
    show bestGo t' y 1 0 ≤ (if y.toOrdinal - x.toOrdinal = 1 then bestGo t' y (1 + 1) 0
      else bestGo t' y 1 (max 0 1))
    by_cases hdiff : y.toOrdinal - x.toOrdinal = 1
    · rw [if_pos hdiff]
      exact bestGo_mono t' y (by omega) (by omega)
    · rw [if_neg hdiff]
      exact bestGo_mono t' y (le_refl 1) (by omega)

/-- In a strictly sorted list, once the scan sits on a run element it picks
up the rest of the run: consecutive ordinals occupy adjacent positions. -/
theorem bestGo_ge_chain : ∀ (rest : List Date) (prev : Date) (s b a n j : Nat),
    List.Pairwise (fun x y => x.toOrdinal < y.toOrdinal) (prev :: rest) →
    prev.toOrdinal = a + j → j < n →
    (∀ i, j < i → i < n → ∃ d ∈ rest, d.toOrdinal = a + i) →
    s + (n - 1 - j) ≤ bestGo rest prev s b := by
  intro rest
  induction rest with
  | nil =>
    intro prev s b a n j _ _ hj hrun
    by_cases hj1 : j + 1 < n
    · obtain ⟨d, hd, -⟩ := hrun (j + 1) (by omega) hj1
      cases hd
    · have h0 : n - 1 - j = 0 := by omega
      rw [h0]
      show s + 0 ≤ max b s
      omega
  | cons d t ih =>
    intro prev s b a n j hp hprev hj hrun
    by_cases hj1 : j + 1 < n
    · obtain ⟨e, he, hee⟩ := hrun (j + 1) (by omega) hj1
      have hprevd : prev.toOrdinal < d.toOrdinal :=
        (List.pairwise_cons.mp hp).1 d (List.mem_cons_self d t)
      have hptail := (List.pairwise_cons.mp hp).2
      have hdmin : ∀ y ∈ t, d.toOrdinal < y.toOrdinal :=
        (List.pairwise_cons.mp hptail).1
      have hed : e = d := by
        rcases List.mem_cons.mp he with h | h
        · exact h
        · exfalso
          have := hdmin e h
          omega
      have hdord : d.toOrdinal = a + (j + 1) := by
        rw [← hed, hee]
      have hdiff : d.toOrdinal - prev.toOrdinal = 1 := by omega
      show s + (n - 1 - j) ≤ (if d.toOrdinal - prev.toOrdinal = 1 then
        bestGo t d (s + 1) b else bestGo t d 1 (max b s))
      rw [if_pos hdiff]
      have hrun' : ∀ i, j + 1 < i → i < n → ∃ e ∈ t, e.toOrdinal = a + i := by
        intro i hji hin
        obtain ⟨e', he', hee'⟩ := hrun i (by omega) hin
        rcases List.mem_cons.mp he' with h | h
        · exfalso
          rw [h, hdord] at hee'
          omega
        · exact ⟨e', h, hee'⟩
      have := ih d (s + 1) b a n (j + 1) hptail hdord hj1 hrun'
      omega
    · have h0 : n - 1 - j = 0 := by omega
      rw [h0]
      have := bestGo_ge_streak (d :: t) prev s b
      omega

/-- The scan result dominates every run present in a strictly sorted list. -/
theorem bestScan_ge_run : ∀ (l : List Date),
    List.Pairwise (fun x y => x.toOrdinal < y.toOrdinal) l →
    ∀ (a n : Nat), 1 ≤ n → (∀ i < n, ∃ d ∈ l, d.toOrdinal = a + i) →
    n ≤ bestScan l := by
  intro l
  induction l with
  | nil =>
    intro _ a n hn hrun
    obtain ⟨d, hd, -⟩ := hrun 0 (by omega)
    cases hd
  | cons x t ih =>
    intro hsorted a n hn hrun
    show n ≤ bestGo t x 1 0
    have hxmin : ∀ y ∈ t, x.toOrdinal < y.toOrdinal :=
      (List.pairwise_cons.mp hsorted).1
    by_cases hx : x.toOrdinal = a
    · have hchain := bestGo_ge_chain t x 1 0 a n 0 hsorted (by omega) (by omega) ?_
      · omega
      · intro i hi0 hin
        obtain ⟨d, hd, hde⟩ := hrun i hin
        rcases List.mem_cons.mp hd with h | h
        · exfalso
          rw [h] at hde
          omega
        · exact ⟨d, h, hde⟩
    · have hrun' : ∀ i < n, ∃ d ∈ t, d.toOrdinal = a + i := by
        intro i hi
        obtain ⟨d, hd, hde⟩ := hrun i hi
        rcases List.mem_cons.mp hd with h | h
        · exfalso
          obtain ⟨e, he, hee⟩ := hrun 0 (by omega)
          rcases List.mem_cons.mp he with h0 | h0
          · rw [h0] at hee
            rw [Nat.add_zero] at hee
            exact hx hee
          · have := hxmin e h0
            rw [h] at hde
            omega
        · exact ⟨d, h, hde⟩
      exact le_trans (ih (List.pairwise_cons.mp hsorted).2 a n hn hrun')
        (bestGo_cons_ge_scan t x)

/-- The best-streak scan over a strictly sorted date list computes exactly
the spec's longest consecutive run of its day ordinals. -/
theorem bestScan_eq_spec (l : List Date)
    (hss : l.Pairwise (fun x y => x.toOrdinal < y.toOrdinal)) :
    bestScan l = specBestStreak ((l.map Date.toOrdinal).toFinset) := by
  apply le_antisymm
  · have hrun := bestScan_hasRun ((l.map Date.toOrdinal).toFinset) l
      (fun d hd => by
        rw [List.mem_toFinset]
        exact List.mem_map_of_mem _ hd)
    exact Nat.le_findGreatest (hasRun_le_card _ hrun) hrun
  · unfold specBestStreak
    by_cases hfg : Nat.findGreatest (HasRun ((l.map Date.toOrdinal).toFinset))
        ((l.map Date.toOrdinal).toFinset).card = 0
    · rw [hfg]
      exact Nat.zero_le _
    · have hp := Nat.findGreatest_spec (m := 0)
        (n := ((l.map Date.toOrdinal).toFinset).card)
        (P := HasRun ((l.map Date.toOrdinal).toFinset)) (Nat.zero_le _) (Or.inl rfl)
      rcases hp with h0 | ⟨a, ha, hrun⟩
      · exact absurd h0 hfg
      · refine bestScan_ge_run l hss a _ (by omega) ?_
        intro i hi
        have := hrun i hi
        rw [List.mem_toFinset, List.mem_map] at this
        obtain ⟨d, hd, hde⟩ := this
        exact ⟨d, hd, hde⟩

/-- C2: `habitStreaks()` lists an entry per habit whose current streak is
the count of consecutive completed days walking backward from today
(stopping at the first gap, 0 when today is missing), whose best streak is
the length of the longest run of calendar-consecutive dates in the habit's
entire completion history, and whose total is the habit's completion
count; in particular the spec's example history 2024-01-01,02,03,05,06
yields best streak 3, not 5. -/
theorem habitStreaks_correct (today : Date) (s : Store)
    (hu : s.UniqueCompletions) (hwf : s.DatesWF) (hv : today.Valid)
    (hlen : s.completions.length < today.toOrdinal) :
    (∀ h ∈ s.habits, ∃ e ∈ get_habit_streaks today s, e.id = h.id) ∧
    (∀ e ∈ get_habit_streaks today s,
      e.current_streak = specCurrentStreak today s e.id ∧
      (∀ i < e.current_streak, habitPresent s e.id (today.predIter i)) ∧
      ¬ habitPresent s e.id (today.predIter e.current_streak) ∧
      e.best_streak = specBestStreak (habitCompOrdinals s e.id) ∧
      e.total_completions = (s.completions.filter (fun c => c.1 = e.id)).length) ∧
    (get_habit_streaks ⟨2024, 1, 7⟩ exStreakStore).map StreakEntry.best_streak = [3] := by
  refine ⟨?_, ?_, by decide⟩
  · intro h hh
    have hh' : h ∈ s.habits.insertionSort (fun a b => habitLe a b = true) :=
      (List.perm_insertionSort _ _).mem_iff.mpr hh
    exact ⟨_, List.mem_map_of_mem _ hh', rfl⟩
  · intro e he
    unfold get_habit_streaks at he
    rw [List.mem_map] at he
    obtain ⟨h, hh, hfe⟩ := he
    have hid : e.id = h.id := by rw [← hfe]
    have hcur : e.current_streak = currentStreakAux (habitDatesDesc s h.id)
        ((habitDatesDesc s h.id).length + 1) today := by rw [← hfe]
    have hbest : e.best_streak =
        bestScan (((habitDatesDesc s h.id).filterMap parseDate).insertionSort dateLe) := by
      rw [← hfe]
    have htot : e.total_completions = (habitDatesDesc s h.id).length := by rw [← hfe]
    have hcomps_len : (habitDatesDesc s h.id).length =
        (s.completions.filter (fun c => c.1 = h.id)).length :=
      habitDatesDesc_length s h.id
    have hclen : (habitDatesDesc s h.id).length < today.toOrdinal := by
      have := List.length_filter_le (fun c => decide (c.1 = h.id)) s.completions
      omega
    have hA := currentStreakAux_spec (habitDatesDesc s h.id)
      ((habitDatesDesc s h.id).length + 1) today
    have hB := currentStreakAux_lt_fuel (habitDatesDesc s h.id) hv hclen
    have hbridge : ∀ i, ((today.predIter i).isoformat ∈ habitDatesDesc s h.id ↔
        habitPresent s h.id (today.predIter i)) := fun i =>
      mem_habitDatesDesc s h.id (today.predIter i).isoformat
    refine ⟨?_, ?_, ?_, ?_, ?_⟩
    · -- current streak = the spec's greatest present-prefix
      rw [hcur, hid]
      unfold specCurrentStreak
      refine (Nat.findGreatest_eq_iff.mpr ⟨?_, ?_, ?_⟩).symm
      · omega
      · intro _
        intro i hi
        exact (hbridge i).mp (hA.2.1 i hi)
      · intro k hk1 _ hPk
        exact ((hbridge _).not.mpr (fun hp => (hA.2.2 hB) ((hbridge _).mpr hp)))
          ((hbridge _).mpr (hPk _ hk1))
    · intro i hi
      rw [hcur] at hi
      rw [hid]
      exact (hbridge i).mp (hA.2.1 i hi)
    · rw [hcur, hid]
      intro hp
      exact (hA.2.2 hB) ((hbridge _).mpr hp)
    · -- best streak = the spec's longest consecutive run
      rw [hbest, hid]
      have hfil_nodup : (s.completions.filter (fun c => c.1 = h.id)).Nodup :=
        hu.filter _
      have hmapsnd : ((s.completions.filter (fun c => c.1 = h.id)).map Prod.snd).Nodup := by
        refine hfil_nodup.map_on ?_
        intro x hx y hy he
        have hx1 := (List.mem_filter.mp hx).2
        have hy1 := (List.mem_filter.mp hy).2
        simp only [decide_eq_true_eq] at hx1 hy1
        cases x; cases y
        simp_all
      have hcomps_nodup : (habitDatesDesc s h.id).Nodup :=
        ((List.perm_insertionSort _ _).nodup_iff).mpr hmapsnd
      have hparse_det : ∀ (a a' : String), ∀ b ∈ parseDate a, b ∈ parseDate a' → a = a' := by
        intro a a' b hb hb'
        rw [Option.mem_def] at hb hb'
        rw [(parseDate_sound hb).2, (parseDate_sound hb').2]
      have hparsed_nodup : ((habitDatesDesc s h.id).filterMap parseDate).Nodup :=
        List.Nodup.filterMap hparse_det hcomps_nodup
      have hvalid_mem : ∀ d ∈ (habitDatesDesc s h.id).filterMap parseDate, d.Valid := by
        intro d hd
        rw [List.mem_filterMap] at hd
        obtain ⟨a, -, ha⟩ := hd
        exact (parseDate_sound ha).1
      have hmap_ord_nodup :
          (((habitDatesDesc s h.id).filterMap parseDate).map Date.toOrdinal).Nodup :=
        hparsed_nodup.map_on
          (fun x hx y hy he => toOrdinal_inj (hvalid_mem x hx) (hvalid_mem y hy) he)
      have hperm_sorted : (((habitDatesDesc s h.id).filterMap parseDate).insertionSort
          dateLe).Perm ((habitDatesDesc s h.id).filterMap parseDate) :=
        List.perm_insertionSort _ _
      have hsorted_nodup : ((((habitDatesDesc s h.id).filterMap parseDate).insertionSort
          dateLe).map Date.toOrdinal).Nodup :=
        ((hperm_sorted.map Date.toOrdinal).nodup_iff).mpr hmap_ord_nodup
      have hsorted_le := List.sorted_insertionSort dateLe
        ((habitDatesDesc s h.id).filterMap parseDate)
      have hsorted_ne : (((habitDatesDesc s h.id).filterMap parseDate).insertionSort
          dateLe).Pairwise (fun x y => x.toOrdinal ≠ y.toOrdinal) := by
        have := hsorted_nodup
        rw [List.Nodup, List.pairwise_map] at this
        exact this
      have hstrict : (((habitDatesDesc s h.id).filterMap parseDate).insertionSort
          dateLe).Pairwise (fun x y => x.toOrdinal < y.toOrdinal) :=
        (List.Pairwise.and hsorted_le hsorted_ne).imp
          (fun hab => lt_of_le_of_ne hab.1 hab.2)
      rw [bestScan_eq_spec _ hstrict]
      congr 1
      apply List.toFinset_eq_of_perm
      exact (hperm_sorted.map Date.toOrdinal).trans
        (((List.perm_insertionSort _ _).filterMap parseDate).map Date.toOrdinal)
    · rw [htot, hid, hcomps_len]

/-- Witness for C2 on the spec's example store, with today = 2024-01-07. -/
theorem habitStreaks_correct_witness :
    exStreakStore.UniqueCompletions ∧ exStreakStore.DatesWF ∧
    (Date.mk 2024 1 7).Valid ∧
    exStreakStore.completions.length < (Date.mk 2024 1 7).toOrdinal ∧
    ((∀ h ∈ exStreakStore.habits,
        ∃ e ∈ get_habit_streaks ⟨2024, 1, 7⟩ exStreakStore, e.id = h.id) ∧
    (∀ e ∈ get_habit_streaks ⟨2024, 1, 7⟩ exStreakStore,
      e.current_streak = specCurrentStreak ⟨2024, 1, 7⟩ exStreakStore e.id ∧
      (∀ i < e.current_streak,
        habitPresent exStreakStore e.id ((Date.mk 2024 1 7).predIter i)) ∧
      ¬ habitPresent exStreakStore e.id ((Date.mk 2024 1 7).predIter e.current_streak) ∧
      e.best_streak = specBestStreak (habitCompOrdinals exStreakStore e.id) ∧
      e.total_completions =
        (exStreakStore.completions.filter (fun c => c.1 = e.id)).length) ∧
    (get_habit_streaks ⟨2024, 1, 7⟩ exStreakStore).map StreakEntry.best_streak = [3]) :=
  ⟨by decide, by decide, by decide, by decide,
   habitStreaks_correct ⟨2024, 1, 7⟩ exStreakStore (by decide) (by decide) (by decide)
     (by decide)⟩

/-- Counterexample to C3 as stated: with 31 future-dated completions the
`ORDER BY date DESC LIMIT 30` window holds only future dates, so the scan
never sees today's completion: the code reports streak 0 while the claim's
description (consecutive completed days ending today) gives 1. -/
theorem dashboard_streak_wrong_on_future_dates :
    (get_statistics ⟨2024, 6, 15⟩ exFutureStore).streak = 0 ∧
    specDashStreak ⟨2024, 6, 15⟩ exFutureStore = 1 ∧
    (get_statistics ⟨2024, 6, 15⟩ exFutureStore).streak ≠
      specDashStreak ⟨2024, 6, 15⟩ exFutureStore := by
  refine ⟨by decide, by decide, ?_⟩
  intro he
  rw [show (get_statistics ⟨2024, 6, 15⟩ exFutureStore).streak = 0 from by decide,
    show specDashStreak ⟨2024, 6, 15⟩ exFutureStore = 1 from by decide] at he
  cases he

/-- Under well-formed, no-future completion dates, a scanned day (at most
29 days before today) carries a completion exactly when its ISO string is
inside the `ORDER BY date DESC LIMIT 30` window: at most 29 distinct
stored dates can sort strictly above it. -/
theorem mem_datesDesc_iff (s : Store) (today : Date)
    (hv : today.Valid) (hord : 30 < today.toOrdinal)
    (hwf : s.DatesWF) (hle : s.DatesLe today) {i : Nat} (hi : i < 30) :
    ((today.predIter i).isoformat ∈ datesDesc s ↔
      specPresent s (today.predIter i)) := by
  have hpred := predIter_valid_ordinal hv i (by omega)
  set L := ((s.completions.map Prod.snd).dedup).insertionSort
    (fun a b => ordKey b ≤ ordKey a) with hL
  have hLperm : L.Perm ((s.completions.map Prod.snd).dedup) :=
    List.perm_insertionSort _ _
  have hmemL : ∀ x ∈ L, ∃ dx : Date, dx.Valid ∧ x = dx.isoformat ∧
      dx.toOrdinal ≤ today.toOrdinal := by
    intro x hx
    have hx2 : x ∈ s.completions.map Prod.snd :=
      List.mem_dedup.mp (hLperm.mem_iff.mp hx)
    rw [List.mem_map] at hx2
    obtain ⟨c, hc, hcx⟩ := hx2
    have hws := hwf c hc
    rw [Option.isSome_iff_exists] at hws
    obtain ⟨dx, hdx⟩ := hws
    obtain ⟨hvx, hex⟩ := parseDate_sound hdx
    have hkey := hle c hc
    rw [hex, ordKey_isoformat hvx] at hkey
    exact ⟨dx, hvx, by rw [← hcx, hex], hkey⟩
  have hnodupL : L.Nodup := (hLperm.nodup_iff).mpr (List.nodup_dedup _)
  have hsortedL : L.Pairwise (fun a b => ordKey b ≤ ordKey a) :=
    List.sorted_insertionSort _ _
  have hstrictL : L.Pairwise (fun a b => ordKey b < ordKey a) := by
    refine (List.Pairwise.and hsortedL hnodupL).imp_of_mem ?_
    intro a b ha hb hab
    obtain ⟨hab1, hne⟩ := hab
    rcases lt_or_eq_of_le hab1 with h | h
    · exact h
    · exfalso
      apply hne
      obtain ⟨da, hva, hea, -⟩ := hmemL a ha
      obtain ⟨db, hvb, heb, -⟩ := hmemL b hb
      rw [hea, heb, ordKey_isoformat hva, ordKey_isoformat hvb] at h
      rw [hea, heb, show da = db from toOrdinal_inj hva hvb h.symm]
  constructor
  · intro hmem
    have hxL : (today.predIter i).isoformat ∈ L :=
      (List.take_sublist 30 L).mem hmem
    have hx2 : (today.predIter i).isoformat ∈ s.completions.map Prod.snd :=
      List.mem_dedup.mp (hLperm.mem_iff.mp hxL)
    rw [List.mem_map] at hx2
    obtain ⟨c, hc, hcx⟩ := hx2
    exact ⟨c, hc, hcx⟩
  · intro hsp
    obtain ⟨c, hc, hcx⟩ := hsp
    have hxL : (today.predIter i).isoformat ∈ L := by
      rw [hLperm.mem_iff, List.mem_dedup]
      exact List.mem_map.mpr ⟨c, hc, hcx⟩
    have hkey : ordKey (today.predIter i).isoformat = today.toOrdinal - i := by
      rw [ordKey_isoformat hpred.1, hpred.2]
    by_contra hnotin
    have hxdrop : (today.predIter i).isoformat ∈ L.drop 30 := by
      rcases List.mem_append.mp (by rw [List.take_append_drop 30 L]; exact hxL) with h | h
      · exact absurd h hnotin
      · exact h
    have hlenL : 30 < L.length := by
      have hne : L.drop 30 ≠ [] := fun he => by
        rw [he] at hxdrop
        cases hxdrop
      have := List.length_drop 30 L
      rcases Nat.lt_or_ge 30 L.length with h | h
      · exact h
      · exfalso
        exact hne (List.drop_eq_nil_of_le h)
    have htakelen : (L.take 30).length = 30 := by
      rw [List.length_take]
      omega
    have hpairsplit : ∀ x ∈ L.take 30, ∀ y ∈ L.drop 30, ordKey y < ordKey x := by
      have hsplit := hstrictL
      rw [← List.take_append_drop 30 L] at hsplit
      exact (List.pairwise_append.mp hsplit).2.2
    have hkeys_gt : ∀ x ∈ L.take 30, today.toOrdinal - i < ordKey x := by
      intro x hx
      have := hpairsplit x hx _ hxdrop
      rwa [hkey] at this
    have hkeys_le : ∀ x ∈ L.take 30, ordKey x ≤ today.toOrdinal := by
      intro x hx
      obtain ⟨dx, hvx, hex, hdle⟩ := hmemL x ((List.take_sublist 30 L).mem hx)
      rw [hex, ordKey_isoformat hvx]
      exact hdle
    have hstrict_take : (L.take 30).Pairwise (fun a b => ordKey b < ordKey a) :=
      List.Pairwise.sublist (List.take_sublist 30 L) hstrictL
    have hkeys_nodup : ((L.take 30).map ordKey).Nodup := by
      rw [List.Nodup, List.pairwise_map]
      exact hstrict_take.imp (fun hlt => Nat.ne_of_gt hlt)
    have hsubset : ((L.take 30).map ordKey).toFinset ⊆
        Finset.Ioc (today.toOrdinal - i) today.toOrdinal := by
      intro k hk
      rw [List.mem_toFinset, List.mem_map] at hk
      obtain ⟨x, hx, hkx⟩ := hk
      rw [Finset.mem_Ioc, ← hkx]
      exact ⟨hkeys_gt x hx, hkeys_le x hx⟩
    have hcard : ((L.take 30).map ordKey).toFinset.card = 30 := by
      rw [List.toFinset_card_of_nodup hkeys_nodup, List.length_map, htakelen]
    have hfin := Finset.card_le_card hsubset
    rw [hcard, Nat.card_Ioc] at hfin
    omega

/-- After the first iteration the dashboard scan is a plain
count-until-missing walk. -/
theorem streakLoop_false_spec (dates : List String) :
    ∀ (fuel : Nat) (d : Date) (streak : Nat),
      ∃ m, streakLoop dates fuel d false streak = streak + m ∧ m ≤ fuel ∧
        (∀ i < m, (d.predIter i).isoformat ∈ dates) ∧
        (m < fuel → (d.predIter m).isoformat ∉ dates) := by
  intro fuel
  induction fuel with
  | zero =>
    intro d streak
    exact ⟨0, rfl, le_refl 0, fun i hi => absurd (show i < 0 from hi) (by omega),
      fun h => absurd (show (0 : Nat) < 0 from h) (by omega)⟩
  | succ n ih =>
    intro d streak
    by_cases hm : d.isoformat ∈ dates
    · obtain ⟨m', he', hle', hall', hstop'⟩ := ih d.pred (streak + 1)
      refine ⟨m' + 1, ?_, by omega, ?_, ?_⟩
      · show (if d.isoformat ∈ dates then streakLoop dates n d.pred false (streak + 1)
          else if (false : Bool) then streakLoop dates n d.pred false streak
          else streak) = streak + (m' + 1)
        rw [if_pos hm, he']
        omega
      · intro i hi
        cases i with
        | zero => exact hm
        | succ k => exact hall' k (by omega)
      · intro hlt
        exact hstop' (by omega)
    · refine ⟨0, ?_, by omega, fun i hi => absurd (show i < 0 from hi) (by omega),
        fun _ => hm⟩
      show (if d.isoformat ∈ dates then streakLoop dates n d.pred false (streak + 1)
        else if (false : Bool) then streakLoop dates n d.pred false streak
        else streak) = streak + 0
      rw [if_neg hm]
      simp

/-- C3 (amended): when every stored completion date is a well-formed ISO
date not after today, the dashboard streak equals the spec's count of
consecutive completed days ending today (today may be missing without
breaking the streak; at most 30 days are scanned). -/
theorem dashboardStreak_correct (today : Date) (s : Store)
    (hv : today.Valid) (hord : 30 < today.toOrdinal)
    (hwf : s.DatesWF) (hle : s.DatesLe today) :
    (get_statistics today s).streak = specDashStreak today s := by
  have hbridge : ∀ i, i < 30 → ((today.predIter i).isoformat ∈ datesDesc s ↔
      specPresent s (today.predIter i)) := fun i hi =>
    mem_datesDesc_iff s today hv hord hwf hle hi
  show streakLoop (datesDesc s) 30 today true 0 = specDashStreak today s
  unfold specDashStreak
  have hshift : ∀ j : Nat, 1 ≤ j → today.pred.predIter (j - 1) = today.predIter j := by
    intro j hj
    obtain ⟨k, rfl⟩ : ∃ k, j = k + 1 := ⟨j - 1, by omega⟩
    have hk : k + 1 - 1 = k := by omega
    rw [hk]
    rfl
  by_cases hm0 : today.isoformat ∈ datesDesc s
  · obtain ⟨m, hm_eq, hm_le, hm_all, hm_stop⟩ :=
      streakLoop_false_spec (datesDesc s) 29 today.pred 1
    have hres : streakLoop (datesDesc s) 30 today true 0 = 1 + m := by
      show (if today.isoformat ∈ datesDesc s then
          streakLoop (datesDesc s) 29 today.pred false (0 + 1)
        else if (true : Bool) then streakLoop (datesDesc s) 29 today.pred false 0
        else 0) = 1 + m
      rw [if_pos hm0]
      exact hm_eq
    rw [hres, if_pos (show specPresent s today from (hbridge 0 (by omega)).mp hm0)]
    congr 1
    refine (Nat.findGreatest_eq_iff.mpr ⟨by omega, ?_, ?_⟩).symm
    · intro _
      intro j hj hj1
      have hmem := hm_all (j - 1) (by omega)
      rw [hshift j hj1] at hmem
      exact (hbridge j (by omega)).mp hmem
    · intro k hk1 hk2 hQ
      have hp := hQ (m + 1) (by omega) (by omega)
      have hmem := (hbridge (m + 1) (by omega)).mpr hp
      have hsh : today.pred.predIter m = today.predIter (m + 1) := rfl
      exact hm_stop (by omega) (by rw [hsh]; exact hmem)
  · obtain ⟨m, hm_eq, hm_le, hm_all, hm_stop⟩ :=
      streakLoop_false_spec (datesDesc s) 29 today.pred 0
    have hres : streakLoop (datesDesc s) 30 today true 0 = m := by
      show (if today.isoformat ∈ datesDesc s then
          streakLoop (datesDesc s) 29 today.pred false (0 + 1)
        else if (true : Bool) then streakLoop (datesDesc s) 29 today.pred false 0
        else 0) = m
      rw [if_neg hm0]
      simpa using hm_eq
    rw [hres, if_neg (show ¬ specPresent s today from (hbridge 0 (by omega)).not.mp hm0)]
    have hfg : Nat.findGreatest
        (fun k => ∀ j ≤ k, 1 ≤ j → specPresent s (today.predIter j)) 29 = m := by
      refine Nat.findGreatest_eq_iff.mpr ⟨by omega, ?_, ?_⟩
      · intro _
        intro j hj hj1
        have hmem := hm_all (j - 1) (by omega)
        rw [hshift j hj1] at hmem
        exact (hbridge j (by omega)).mp hmem
      · intro k hk1 hk2 hQ
        have hp := hQ (m + 1) (by omega) (by omega)
        have hmem := (hbridge (m + 1) (by omega)).mpr hp
        have hsh : today.pred.predIter m = today.predIter (m + 1) := rfl
        exact hm_stop (by omega) (by rw [hsh]; exact hmem)
    omega

/-- Witness for the amended C3: a two-day streak ending today, with no
future-dated completions. -/
theorem dashboardStreak_correct_witness :
    (Date.mk 2024 6 3).Valid ∧ 30 < (Date.mk 2024 6 3).toOrdinal ∧
    exDashStore.DatesWF ∧ exDashStore.DatesLe ⟨2024, 6, 3⟩ ∧
    (get_statistics ⟨2024, 6, 3⟩ exDashStore).streak =
      specDashStreak ⟨2024, 6, 3⟩ exDashStore :=
  ⟨by decide, by decide, by decide, by decide,
   dashboardStreak_correct ⟨2024, 6, 3⟩ exDashStore (by decide) (by decide) (by decide)
     (by decide)⟩

end HabitFlow
